import Mathlib

/-!
# Verkle-trie state engine: a shallow embedding

This file embeds the core of the QoraNet Verkle-trie state engine in Lean 4
and settles the frozen claims about it.

The repository ships the state layer (`go/database/vt/memory/state.go`, the
geth adapters) together with the unit tests of the `commit` and `trie`
packages, but not the bodies of those two packages themselves.  Definitions
for the missing packages are therefore modelled from the specification
(each such definition's doc comment starts with `Modelled from the spec:`);
everything in `memory/state.go` is translated directly from the Go source.

Bytes are `Fin 256`; 32-byte keys and values are functions `Fin 32 → Byte`;
machine integers are `Nat` with explicit truncation where the Go code
truncates.
-/

namespace Vt

/-- A byte. -/
abbrev Byte := Fin 256

/-- Modelled from the spec: the order of the scalar field `F` of the
commitment scheme.  The spec fixes only that it is the order of a prime
field; the concrete odd prime `2^255 - 19` stands in for it. -/
def fieldOrder : Nat := 2 ^ 255 - 19

/-- Modelled from the spec: the scalar field `F` of the commitment scheme. -/
abbrev F := ZMod fieldOrder

/-- Modelled from the spec: the additive group `G` of the commitment scheme,
idealised as the free module `F^256`, so that the 256 generators are
independent (the spec's binding assumption holds unconditionally in the
model). -/
abbrev G := Fin 256 → F

/-- Modelled from the spec: the fixed public generator family
`{H_0, …, H_255}`; in the free-module idealisation `H i` is the `i`-th
standard basis vector. -/
def H (i : Fin 256) : G := Pi.single i 1

/-- Modelled from the spec: `Commit(v) = Σ_{i} v_i · H_i`. -/
def Commit (v : Fin 256 → F) : G := ∑ i, v i • H i

/-- Modelled from the spec: `Identity()`, the group identity. -/
def Identity : G := 0

/-- Modelled from the spec:
`Update(C, i, v_old, v_new) = C + (v_new − v_old) · H_i`. -/
def Update (C : G) (i : Fin 256) (vOld vNew : F) : G :=
  C + (vNew - vOld) • H i

/-- In the free-module idealisation a commitment determines the committed
vector pointwise. -/
theorem Commit_apply (v : Fin 256 → F) (j : Fin 256) : Commit v j = v j := by
  simp [Commit, H, Finset.sum_apply, Pi.single_apply, mul_ite]

theorem Commit_eq_self (v : Fin 256 → F) : Commit v = v :=
  funext fun j => Commit_apply v j

/-- Modelled from the spec: `NewValue(n)` embeds a machine word into the
scalar field (`commit.NewValue` of the test suite). -/
def NewValue (n : Nat) : F := (n : F)

/-- Modelled from the spec: the opening object `π` produced by `Open`.  The
idealised opening records the committed vector and the opened position; a
verifier re-commits and compares. -/
structure Opening where
  vec : Fin 256 → F
  pos : Fin 256
  deriving DecidableEq

/-- Modelled from the spec: `Open(C, v, i) → π`. -/
def Open (_C : G) (v : Fin 256 → F) (i : Fin 256) : Opening := ⟨v, i⟩

/-- Modelled from the spec: `Verify(C, i, y, π)` returns true iff `π` proves
that the committed value at position `i` was `y` (the Go signature is
`opening.Verify(commitment, pos, value)`). -/
def Opening.Verify (π : Opening) (C : G) (i : Fin 256) (y : F) : Bool :=
  decide (Commit π.vec = C ∧ π.pos = i ∧ π.vec i = y)

/-- Modelled from the spec: `ToScalar(C)`, the canonical, deterministic
projection of a group element into a field element used to embed child
commitments into parent vectors; `ToScalar(identity) = 0`. -/
def ToScalar (C : G) : F := ∑ i, C i * 2 ^ (i : Nat)

theorem ToScalar_zero : ToScalar 0 = 0 := by
  simp [ToScalar]

theorem ToScalar_single (i : Fin 256) (x : F) :
    ToScalar (Pi.single i x) = x * 2 ^ (i : Nat) := by
  simp [ToScalar, Pi.single_apply, ite_mul]

/-- Modelled from the spec: `Compress(C) → 32 bytes`; the identity
serialises to the all-zero 32-byte string.  The model keeps of the real
compressed form exactly the property the spec states: the all-zero
serialisation denotes the identity and nothing else. -/
def Compress (C : G) : List Byte :=
  if C = 0 then List.replicate 32 0 else List.replicate 31 0 ++ [1]

theorem Compress_zero : Compress 0 = List.replicate 32 0 := by
  simp [Compress]

theorem Compress_ne_zero {C : G} (h : C ≠ 0) :
    Compress C = List.replicate 31 0 ++ [1] := by
  simp [Compress, h]

theorem Compress_eq_zero_iff (C : G) :
    Compress C = List.replicate 32 0 ↔ C = 0 := by
  constructor
  · intro h
    by_contra hC
    rw [Compress_ne_zero hC] at h
    exact absurd h (by decide)
  · intro h
    rw [h, Compress_zero]

/-- `Update` on the free-module model: the incremental-update identity. -/
theorem Update_eq_commit_update (v : Fin 256 → F) (i : Fin 256) (vNew : F) :
    Update (Commit v) i (v i) vNew = Commit (Function.update v i vNew) := by
  rw [Commit_eq_self, Commit_eq_self]
  funext j
  by_cases hj : j = i
  · subst hj
    simp [Update, H, Pi.single_apply]
  · simp [Update, H, Pi.single_apply, hj, Function.update, Ne.symm hj]

/-! ## The Verkle trie (package `trie`; modelled from the spec, §3/§4.2/§4.3) -/

/-- A 32-byte trie key (`trie.Key`). -/
abbrev Key := Fin 32 → Byte

/-- A 32-byte trie value (`trie.Value`). -/
abbrev Value := Fin 32 → Byte

/-- The 31-byte stem of a key. -/
abbrev Stem := Fin 31 → Byte

/-- The all-zero value: semantically "absent". -/
def zeroValue : Value := fun _ => 0

/-- The stem of a key: its first 31 bytes. -/
def stemOfKey (k : Key) : Stem := fun i => k (Fin.castLE (by omega) i)

/-- The sub-index of a key: its last byte. -/
def subIndex (k : Key) : Byte := k 31

/-- The byte of a key at a (possibly out-of-range) depth. -/
def keyByte (k : Key) (d : Nat) : Byte :=
  if h : d < 32 then k ⟨d, h⟩ else 0

/-- The byte of a stem at a (possibly out-of-range) depth. -/
def stemByte (s : Stem) (d : Nat) : Byte :=
  if h : d < 31 then s ⟨d, h⟩ else 0

/-- Modelled from the spec: the three node variants of the trie.  An inner
node has fan-out 256; a leaf holds a 31-byte stem and a 256-entry value
vector indexed by the sub-index. -/
inductive Node where
  | empty : Node
  | inner (children : Byte → Node) : Node
  | leaf (stem : Stem) (values : Byte → Value) : Node

/-- The value vector of a fresh leaf holding one key/value pair. -/
def singleValues (k : Key) (v : Value) : Byte → Value :=
  Function.update (fun _ => zeroValue) (subIndex k) v

/-- Modelled from the spec: the split of a leaf (insertion rule 3).  `d` is
the depth of the slot the old leaf occupied; a chain of fresh inner nodes is
built along the bytes the two stems share beyond that depth, and the two
leaves are placed in distinct child slots of the deepest fresh inner node.
`fuel` bounds the recursion; callers pass `31 - d`, enough to reach the
first position at which two distinct stems differ. -/
def splitChain : Nat → Nat → Stem → (Byte → Value) → Key → Value → Node
  | 0, _, _, _, k, v => .leaf (stemOfKey k) (singleValues k v)
  | fuel + 1, d, s, vals, k, v =>
    if stemByte s d = keyByte k d then
      .inner (Function.update (fun _ => .empty) (stemByte s d)
        (splitChain fuel (d + 1) s vals k v))
    else
      .inner (Function.update
        (Function.update (fun _ => .empty) (stemByte s d) (.leaf s vals))
        (keyByte k d) (.leaf (stemOfKey k) (singleValues k v)))

/-- Modelled from the spec: insertion into the node reached by consuming the
first `d` bytes of the key (§4.3 insertion rules 1–4). -/
def Node.set : Node → Nat → Key → Value → Node
  | .empty, _, k, v => .leaf (stemOfKey k) (singleValues k v)
  | .leaf s vals, d, k, v =>
    if s = stemOfKey k then .leaf s (Function.update vals (subIndex k) v)
    else splitChain (31 - d) d s vals k v
  | .inner ch, d, k, v =>
    .inner (Function.update ch (keyByte k d) ((ch (keyByte k d)).set (d + 1) k v))

/-- Modelled from the spec: lookup from the node reached by consuming the
first `d` bytes of the key.  Total: an absent key yields the zero value. -/
def Node.get : Node → Nat → Key → Value
  | .empty, _, _ => zeroValue
  | .leaf s vals, _, k => if s = stemOfKey k then vals (subIndex k) else zeroValue
  | .inner ch, d, k => (ch (keyByte k d)).get (d + 1) k

/-- Modelled from the spec: `trie.Trie` (root is nil, i.e. empty, initially). -/
structure Trie where
  root : Node := .empty

/-- The empty trie. -/
def Trie.empty : Trie := ⟨.empty⟩

/-- Modelled from the spec: `Trie.Set(key, value)`.  Overwrites; writing the
zero value is not a structural delete.  The root becomes (or stays) an inner
node, as the trie tests require. -/
def Trie.set (t : Trie) (k : Key) (v : Value) : Trie :=
  match t.root with
  | .inner ch =>
    ⟨.inner (Function.update ch (keyByte k 0) ((ch (keyByte k 0)).set 1 k v))⟩
  | _ =>
    ⟨.inner (Function.update (fun _ => .empty) (keyByte k 0) (Node.set .empty 1 k v))⟩

/-- Modelled from the spec: `Trie.Get(key)`.  Returns the stored value or
the zero value if not present; never errors (it is a total function). -/
def Trie.get (t : Trie) (k : Key) : Value := t.root.get 0 k

/-- Modelled from the spec: the low half of a 32-byte value, reduced into
`F` (bytes 0..15, big-endian; the spec leaves the endianness of the
reduction to the implementation). -/
def lowHalf (v : Value) : F :=
  ((List.ofFn v).take 16).foldl (fun acc b => acc * 256 + (b : Nat)) 0

/-- Modelled from the spec: the high half of a 32-byte value, reduced into
`F` (bytes 16..31, big-endian). -/
def highHalf (v : Value) : F :=
  ((List.ofFn v).drop 16).foldl (fun acc b => acc * 256 + (b : Nat)) 0

/-- Modelled from the spec: the commitment of a leaf's value vector.  The
256 values are split at the 16-byte boundary into two 256-element vectors;
their commitments are scalarised into slots 0 and 1 of a third vector whose
commitment is the leaf commitment (the spec leaves the exact combination
rule to the implementation, requiring only determinism; an all-zero leaf
commits to the identity, as the spec's edge case demands). -/
def leafCommit (vals : Byte → Value) : G :=
  Commit (Function.update
    (Function.update (fun _ => 0) 0 (ToScalar (Commit fun i => lowHalf (vals i))))
    1 (ToScalar (Commit fun i => highHalf (vals i))))

/-- Modelled from the spec: the commitment of a node (§4.2): the identity
for an empty node, the vector commitment over the scalarised child
commitments for an inner node, the leaf commitment for a leaf. -/
def Node.commit : Node → G
  | .empty => Identity
  | .inner ch => Commit fun i => ToScalar ((ch i).commit)
  | .leaf _ vals => leafCommit vals

/-- Modelled from the spec: `Trie.Commit()`, the root commitment. -/
def Trie.commit (t : Trie) : G := t.root.commit

/-! ### The stem map of a node: the key/value data a subtree represents -/

/-- The first `d` bytes of a stem, as a path. -/
def takeStem (d : Nat) (s : Stem) : List Byte :=
  (List.range d).map fun j => stemByte s j

/-- The value vectors stored in the subtree rooted at a node reached by
consuming `d` key bytes, indexed by stem. -/
def Node.stemMap : Node → Nat → Stem → Option (Byte → Value)
  | .empty, _, _ => none
  | .leaf s vals, _, s' => if s' = s then some vals else none
  | .inner ch, d, s' => (ch (stemByte s' d)).stemMap (d + 1) s'

/-- Well-formedness of a node sitting under the path `pref`: leaves carry
stems extending the path, inner nodes sit at depth at most 30. -/
def Node.wf : Node → List Byte → Prop
  | .empty, _ => True
  | .leaf s _, pref => pref.length ≤ 31 ∧ takeStem pref.length s = pref
  | .inner ch, pref => pref.length ≤ 30 ∧ ∀ i, (ch i).wf (pref ++ [i])

theorem takeStem_succ (d : Nat) (s : Stem) :
    takeStem (d + 1) s = takeStem d s ++ [stemByte s d] := by
  simp [takeStem, List.range_succ]

theorem takeStem_length (d : Nat) (s : Stem) : (takeStem d s).length = d := by
  simp [takeStem]

theorem takeStem_eq_iff (d : Nat) (s s' : Stem) :
    takeStem d s = takeStem d s' ↔ ∀ j < d, stemByte s j = stemByte s' j := by
  induction d with
  | zero => simp [takeStem]
  | succ d ih =>
    constructor
    · intro h
      rw [takeStem_succ, takeStem_succ] at h
      have h1 := List.append_inj' h (by simp)
      intro j hj
      rcases Nat.lt_succ_iff_lt_or_eq.mp hj with hj | hj
      · exact (ih.mp h1.1) j hj
      · subst hj
        simpa using h1.2
    · intro h
      rw [takeStem_succ, takeStem_succ,
        ih.mpr (fun j hj => h j (by omega)), h d (by omega)]

theorem keyByte_eq_stemByte (k : Key) (d : Nat) (h : d < 31) :
    keyByte k d = stemByte (stemOfKey k) d := by
  simp only [keyByte, stemByte, stemOfKey]
  rw [dif_pos (by omega), dif_pos h]
  congr 1

theorem key_ext (k k' : Key) (hs : stemOfKey k = stemOfKey k')
    (hi : subIndex k = subIndex k') : k = k' := by
  funext i
  by_cases h : (i : Nat) < 31
  · have := congrFun hs ⟨i, h⟩
    simpa [stemOfKey, Fin.castLE] using this
  · have : i = 31 := by omega
    subst this
    exact hi

/-- Two distinct stems differ at some byte position below 31. -/
theorem stem_ne_iff (s s' : Stem) (h : s ≠ s') :
    ∃ j, j < 31 ∧ stemByte s j ≠ stemByte s' j := by
  by_contra hc
  push_neg at hc
  apply h
  funext i
  have := hc i i.isLt
  simpa [stemByte, i.isLt] using this

theorem splitChain_stemMap (fuel : Nat) : ∀ (d : Nat) (s : Stem)
    (vals : Byte → Value) (k : Key) (v : Value),
    takeStem d s = takeStem d (stemOfKey k) →
    (∃ j, d ≤ j ∧ j < 31 ∧ stemByte s j ≠ stemByte (stemOfKey k) j) →
    31 ≤ d + fuel →
    ∀ s', (splitChain fuel d s vals k v).stemMap d s' =
      if s' = stemOfKey k then some (singleValues k v)
      else if s' = s then some vals else none := by
  induction fuel with
  | zero =>
    intro d s vals k v _ hdiv hfuel
    obtain ⟨j, hdj, hj31, _⟩ := hdiv
    omega
  | succ fuel ih =>
    intro d s vals k v hsk hdiv hfuel s'
    obtain ⟨j, hdj, hj31, hjne⟩ := hdiv
    have hd31 : d < 31 := by omega
    have hkb : keyByte k d = stemByte (stemOfKey k) d := keyByte_eq_stemByte k d hd31
    by_cases hb : stemByte s d = keyByte k d
    · rw [splitChain, if_pos hb]
      simp only [Node.stemMap, Function.update_apply]
      by_cases hroute : stemByte s' d = stemByte s d
      · rw [if_pos hroute]
        apply ih (d + 1) s vals k v
        · rw [takeStem_succ, takeStem_succ, hsk, hb, hkb]
        · refine ⟨j, ?_, hj31, hjne⟩
          rcases Nat.eq_or_lt_of_le hdj with hdj | hdj
          · exact absurd (hdj ▸ hjne) (by rw [hb, hkb]; simp)
          · omega
        · omega
      · rw [if_neg hroute]
        have hns : s' ≠ s := fun he => hroute (by rw [he])
        have hnk : s' ≠ stemOfKey k := by
          intro he
          exact hroute (by rw [he, ← hkb, ← hb])
        simp [Node.stemMap, hns, hnk]
    · rw [splitChain, if_neg hb]
      simp only [Node.stemMap, Function.update_apply]
      by_cases h1 : stemByte s' d = keyByte k d
      · rw [if_pos h1]
        have hns : s' ≠ s := by
          intro he
          exact hb (by rw [← he, h1])
        simp only [Node.stemMap, hns, if_neg hns]
        by_cases hk : s' = stemOfKey k
        · simp [hk]
        · simp [hk]
      · rw [if_neg h1]
        have hnk : s' ≠ stemOfKey k := by
          intro he
          exact h1 (by rw [he, hkb])
        by_cases h2 : stemByte s' d = stemByte s d
        · rw [if_pos h2]
          simp [Node.stemMap, hnk]
        · rw [if_neg h2]
          have hns : s' ≠ s := fun he => h2 (by rw [he])
          simp [Node.stemMap, hns, hnk]

theorem splitChain_wf (fuel : Nat) : ∀ (d : Nat) (s : Stem)
    (vals : Byte → Value) (k : Key) (v : Value),
    takeStem d s = takeStem d (stemOfKey k) →
    (∃ j, d ≤ j ∧ j < 31 ∧ stemByte s j ≠ stemByte (stemOfKey k) j) →
    31 ≤ d + fuel →
    (splitChain fuel d s vals k v).wf (takeStem d s) := by
  induction fuel with
  | zero =>
    intro d s vals k v _ hdiv hfuel
    obtain ⟨j, hdj, hj31, _⟩ := hdiv
    omega
  | succ fuel ih =>
    intro d s vals k v hsk hdiv hfuel
    obtain ⟨j, hdj, hj31, hjne⟩ := hdiv
    have hd31 : d < 31 := by omega
    have hkb : keyByte k d = stemByte (stemOfKey k) d := keyByte_eq_stemByte k d hd31
    by_cases hb : stemByte s d = keyByte k d
    · rw [splitChain, if_pos hb]
      refine ⟨by simp [takeStem_length]; omega, fun i => ?_⟩
      rw [Function.update_apply]
      by_cases hi : i = stemByte s d
      · rw [if_pos hi, hi, ← takeStem_succ]
        apply ih (d + 1) s vals k v
        · rw [takeStem_succ, takeStem_succ, hsk, hb, hkb]
        · refine ⟨j, ?_, hj31, hjne⟩
          rcases Nat.eq_or_lt_of_le hdj with hdj | hdj
          · exact absurd (hdj ▸ hjne) (by rw [hb, hkb]; simp)
          · omega
        · omega
      · rw [if_neg hi]
        trivial
    · rw [splitChain, if_neg hb]
      refine ⟨by simp [takeStem_length]; omega, fun i => ?_⟩
      rw [Function.update_apply, Function.update_apply]
      by_cases hik : i = keyByte k d
      · rw [if_pos hik, hik]
        refine ⟨by simp [takeStem_length]; omega, ?_⟩
        rw [show takeStem d s ++ [keyByte k d] = takeStem (d + 1) (stemOfKey k) by
          rw [takeStem_succ, hsk, hkb]]
        rw [takeStem_length]
      · rw [if_neg hik]
        by_cases his : i = stemByte s d
        · rw [if_pos his, his]
          refine ⟨by simp [takeStem_length]; omega, ?_⟩
          rw [show takeStem d s ++ [stemByte s d] = takeStem (d + 1) s by
            rw [takeStem_succ]]
          rw [takeStem_length]
        · rw [if_neg his]
          trivial

theorem Node.set_stemMap (n : Node) : ∀ (pref : List Byte), n.wf pref →
    ∀ (k : Key) (v : Value), takeStem pref.length (stemOfKey k) = pref →
    ∀ s', (n.set pref.length k v).stemMap pref.length s' =
      if s' = stemOfKey k then
        some (Function.update
          ((n.stemMap pref.length (stemOfKey k)).getD (fun _ => zeroValue))
          (subIndex k) v)
      else n.stemMap pref.length s' := by
  induction n with
  | empty =>
    intro pref _ k v _ s'
    by_cases hk : s' = stemOfKey k
    · simp [Node.set, Node.stemMap, hk, singleValues]
    · simp [Node.set, Node.stemMap, hk]
  | leaf s vals =>
    intro pref hwf k v hpk s'
    obtain ⟨hlen, hps⟩ := hwf
    by_cases hs : s = stemOfKey k
    · by_cases hk : s' = stemOfKey k
      · simp [Node.set, Node.stemMap, hs, hk]
      · simp [Node.set, Node.stemMap, hs, hk]
    · rw [show Node.set (.leaf s vals) pref.length k v =
        splitChain (31 - pref.length) pref.length s vals k v by
          simp [Node.set, hs]]
      have hsk : takeStem pref.length s = takeStem pref.length (stemOfKey k) := by
        rw [hps, hpk]
      have hdiv : ∃ j, pref.length ≤ j ∧ j < 31 ∧
          stemByte s j ≠ stemByte (stemOfKey k) j := by
        obtain ⟨j, hj31, hjne⟩ := stem_ne_iff s (stemOfKey k) hs
        refine ⟨j, ?_, hj31, hjne⟩
        by_contra hlt
        exact hjne ((takeStem_eq_iff pref.length s (stemOfKey k)).mp hsk j (by omega))
      rw [splitChain_stemMap (31 - pref.length) pref.length s vals k v hsk hdiv
        (by omega) s']
      by_cases hk : s' = stemOfKey k
      · rw [if_pos hk, if_pos hk]
        have : Node.stemMap (.leaf s vals) pref.length (stemOfKey k) = none := by
          simp [Node.stemMap, Ne.symm hs]
        rw [this]
        rfl
      · rw [if_neg hk, if_neg hk]
        simp [Node.stemMap]
  | inner ch ih =>
    intro pref hwf k v hpk s'
    obtain ⟨hlen, hch⟩ := hwf
    have hkb : keyByte k pref.length = stemByte (stemOfKey k) pref.length :=
      keyByte_eq_stemByte k pref.length (by omega)
    simp only [Node.set, Node.stemMap, Function.update_apply]
    by_cases hroute : stemByte s' pref.length = stemByte (stemOfKey k) pref.length
    · rw [hroute, ← hkb, if_pos rfl]
      have hchild := ih (keyByte k pref.length) (pref ++ [keyByte k pref.length])
        (hch (keyByte k pref.length)) k v
        (by rw [List.length_append, List.length_singleton, takeStem_succ, hpk, hkb])
        s'
      rw [List.length_append, List.length_singleton] at hchild
      rw [hchild, hkb]
    · rw [if_neg (by rw [← hkb] at hroute; exact hroute)]
      have hnk : s' ≠ stemOfKey k := fun he => hroute (by rw [he])
      rw [if_neg hnk]

theorem Node.get_stemMap (n : Node) : ∀ (pref : List Byte), n.wf pref →
    ∀ k, n.get pref.length k =
      ((n.stemMap pref.length (stemOfKey k)).getD (fun _ => zeroValue))
        (subIndex k) := by
  induction n with
  | empty =>
    intro pref _ k
    simp [Node.get, Node.stemMap]
  | leaf s vals =>
    intro pref _ k
    by_cases hs : s = stemOfKey k
    · simp [Node.get, Node.stemMap, hs]
    · simp [Node.get, Node.stemMap, hs, Ne.symm hs]
  | inner ch ih =>
    intro pref hwf k
    obtain ⟨hlen, hch⟩ := hwf
    have hkb : keyByte k pref.length = stemByte (stemOfKey k) pref.length :=
      keyByte_eq_stemByte k pref.length (by omega)
    simp only [Node.get, Node.stemMap, hkb]
    have := ih (stemByte (stemOfKey k) pref.length)
      (pref ++ [stemByte (stemOfKey k) pref.length])
      (by rw [← hkb]; exact hch _) k
    rw [List.length_append, List.length_singleton] at this
    exact this

theorem Node.set_wf (n : Node) : ∀ (pref : List Byte), n.wf pref →
    ∀ (k : Key) (v : Value), takeStem pref.length (stemOfKey k) = pref →
    pref.length ≤ 31 → (n.set pref.length k v).wf pref := by
  induction n with
  | empty =>
    intro pref _ k v hpk h31
    exact ⟨h31, hpk⟩
  | leaf s vals =>
    intro pref hwf k v hpk h31
    obtain ⟨hlen, hps⟩ := hwf
    by_cases hs : s = stemOfKey k
    · rw [show Node.set (.leaf s vals) pref.length k v =
        .leaf s (Function.update vals (subIndex k) v) by simp [Node.set, hs]]
      exact ⟨hlen, hps⟩
    · rw [show Node.set (.leaf s vals) pref.length k v =
        splitChain (31 - pref.length) pref.length s vals k v by
          simp [Node.set, hs]]
      have hsk : takeStem pref.length s = takeStem pref.length (stemOfKey k) := by
        rw [hps, hpk]
      have hdiv : ∃ j, pref.length ≤ j ∧ j < 31 ∧
          stemByte s j ≠ stemByte (stemOfKey k) j := by
        obtain ⟨j, hj31, hjne⟩ := stem_ne_iff s (stemOfKey k) hs
        refine ⟨j, ?_, hj31, hjne⟩
        by_contra hlt
        exact hjne ((takeStem_eq_iff pref.length s (stemOfKey k)).mp hsk j (by omega))
      have := splitChain_wf (31 - pref.length) pref.length s vals k v hsk hdiv
        (by omega)
      rw [hps] at this
      exact this
  | inner ch ih =>
    intro pref hwf k v hpk h31
    obtain ⟨hlen, hch⟩ := hwf
    refine ⟨hlen, fun i => ?_⟩
    simp only [Node.set, Function.update_apply]
    by_cases hi : i = keyByte k pref.length
    · rw [if_pos hi, hi]
      have hkb : keyByte k pref.length = stemByte (stemOfKey k) pref.length :=
        keyByte_eq_stemByte k pref.length (by omega)
      have := ih (keyByte k pref.length) (pref ++ [keyByte k pref.length])
        (hch _) k v
        (by rw [List.length_append, List.length_singleton, takeStem_succ, hpk, hkb])
        (by simp; omega)
      rw [List.length_append, List.length_singleton] at this
      exact this
    · rw [if_neg hi]
      exact hch i

/-! ### Trie-level counterparts -/

/-- The children of the root, viewing an empty root as an all-empty inner
node (the root of a non-empty trie is always an inner node). -/
def Trie.rootChildren (t : Trie) : Byte → Node :=
  match t.root with
  | .inner ch => ch
  | _ => fun _ => .empty

/-- The stem map of a whole trie. -/
def Trie.stemMapF (t : Trie) : Stem → Option (Byte → Value) :=
  Node.stemMap (.inner t.rootChildren) 0

/-- Reachable tries: the root is empty or inner (never a leaf), and every
root child is a well-formed subtree. -/
def Trie.wfRoot (t : Trie) : Prop :=
  (t.root = .empty ∨ ∃ ch, t.root = .inner ch) ∧ ∀ i, (t.rootChildren i).wf [i]

theorem Trie.empty_wfRoot : Trie.empty.wfRoot := by
  exact ⟨Or.inl rfl, fun i => trivial⟩

theorem Trie.set_root (t : Trie) (k : Key) (v : Value) :
    (t.set k v).root = Node.set (.inner t.rootChildren) 0 k v := by
  cases h : t.root with
  | inner ch => simp [Trie.set, Trie.rootChildren, h, Node.set]
  | empty => simp [Trie.set, Trie.rootChildren, h, Node.set]
  | leaf s vals => simp [Trie.set, Trie.rootChildren, h, Node.set]

theorem Trie.set_rootChildren (t : Trie) (k : Key) (v : Value) :
    (t.set k v).rootChildren =
      Function.update t.rootChildren (keyByte k 0)
        ((t.rootChildren (keyByte k 0)).set 1 k v) := by
  rw [Trie.rootChildren, Trie.set_root]
  simp [Node.set]

theorem Trie.get_eq_node_get (t : Trie) (hw : t.wfRoot) (k : Key) :
    t.get k = Node.get (.inner t.rootChildren) 0 k := by
  rcases hw.1 with h | ⟨ch, h⟩
  · simp [Trie.get, Trie.rootChildren, h, Node.get, zeroValue]
  · simp [Trie.get, Trie.rootChildren, h, Node.get]

theorem Trie.root_wf (t : Trie) (h : t.wfRoot) :
    Node.wf (.inner t.rootChildren) [] :=
  ⟨by simp, fun i => h.2 i⟩

theorem Trie.set_wfRoot (t : Trie) (h : t.wfRoot) (k : Key) (v : Value) :
    (t.set k v).wfRoot := by
  constructor
  · refine Or.inr ⟨Function.update t.rootChildren (keyByte k 0)
      ((t.rootChildren (keyByte k 0)).set 1 k v), ?_⟩
    rw [Trie.set_root]
    simp [Node.set]
  intro i
  have hwf := Node.set_wf (.inner t.rootChildren) [] (t.root_wf h) k v
    (by simp [takeStem]) (by simp)
  simp only [List.length_nil, Node.set] at hwf
  obtain ⟨-, hch⟩ := hwf
  rw [Trie.set_rootChildren]
  simpa using hch i

/-- One `Set` rewrites the trie's stem map at the written stem. -/
theorem Trie.set_stemMapF (t : Trie) (h : t.wfRoot) (k : Key) (v : Value) :
    ∀ s', (t.set k v).stemMapF s' =
      if s' = stemOfKey k then
        some (Function.update
          ((t.stemMapF (stemOfKey k)).getD (fun _ => zeroValue)) (subIndex k) v)
      else t.stemMapF s' := by
  intro s'
  have hm := Node.set_stemMap (.inner t.rootChildren) [] (t.root_wf h) k v
    (by simp [takeStem]) s'
  simp only [List.length_nil, Node.set] at hm
  rw [Trie.stemMapF, Trie.set_rootChildren]
  exact hm

/-- `Get` reads the trie's stem map. -/
theorem Trie.get_stemMapF (t : Trie) (h : t.wfRoot) (k : Key) :
    t.get k = ((t.stemMapF (stemOfKey k)).getD (fun _ => zeroValue))
      (subIndex k) := by
  rw [Trie.get_eq_node_get t h]
  have := Node.get_stemMap (.inner t.rootChildren) [] (t.root_wf h) k
  simpa using this

/-! ### Sequences of writes -/

/-- The trie obtained by applying a list of `(key, value)` writes, in order,
to the empty trie. -/
def writeOps (ops : List (Key × Value)) : Trie :=
  ops.foldl (fun t kv => t.set kv.1 kv.2) Trie.empty

/-- The effect of one write on a stem map (the abstract model of `Set`). -/
def applyWrite (m : Stem → Option (Byte → Value)) (k : Key) (v : Value) :
    Stem → Option (Byte → Value) :=
  fun s => if s = stemOfKey k then
    some (Function.update ((m (stemOfKey k)).getD (fun _ => zeroValue))
      (subIndex k) v)
  else m s

/-- One step of the last-write tracker for a fixed key. -/
def lwStep (k : Key) (acc : Option Value) (kv : Key × Value) : Option Value :=
  if kv.1 = k then some kv.2 else acc

/-- The value most recently written to `k` by a list of writes, if any:
the reference semantics the spec assigns to `Get`. -/
def lastWrite (ops : List (Key × Value)) (k : Key) : Option Value :=
  ops.foldl (lwStep k) none

theorem writeFold_wfRoot (ops : List (Key × Value)) : ∀ (t : Trie),
    t.wfRoot → (ops.foldl (fun t kv => t.set kv.1 kv.2) t).wfRoot := by
  induction ops with
  | nil => intro t h; exact h
  | cons kv rest ih =>
    intro t h
    exact ih _ (t.set_wfRoot h kv.1 kv.2)

theorem writeFold_stemMapF (ops : List (Key × Value)) : ∀ (t : Trie),
    t.wfRoot →
    (ops.foldl (fun t kv => t.set kv.1 kv.2) t).stemMapF =
      ops.foldl (fun m kv => applyWrite m kv.1 kv.2) t.stemMapF := by
  induction ops with
  | nil => intro t _; rfl
  | cons kv rest ih =>
    intro t h
    rw [List.foldl_cons, List.foldl_cons, ih _ (t.set_wfRoot h kv.1 kv.2)]
    congr 1
    funext s'
    exact t.set_stemMapF h kv.1 kv.2 s'

theorem applyWrite_lookup (m : Stem → Option (Byte → Value)) (k1 k : Key)
    (v1 : Value) :
    ((applyWrite m k1 v1 (stemOfKey k)).getD (fun _ => zeroValue))
        (subIndex k) =
      if k = k1 then v1
      else ((m (stemOfKey k)).getD (fun _ => zeroValue)) (subIndex k) := by
  by_cases hs : stemOfKey k = stemOfKey k1
  · rw [applyWrite, if_pos hs, Option.getD_some, hs, Function.update_apply]
    by_cases hi : subIndex k = subIndex k1
    · rw [if_pos hi, if_pos (key_ext k k1 hs hi)]
    · rw [if_neg hi, if_neg (fun he => hi (by rw [he]))]
  · rw [applyWrite, if_neg hs, if_neg (fun he => hs (by rw [he]))]

theorem lwStep_foldl_acc (k : Key) (ops : List (Key × Value)) :
    ∀ acc, ops.foldl (lwStep k) acc =
      match ops.foldl (lwStep k) none with
      | some v => some v
      | none => acc := by
  induction ops with
  | nil => intro acc; rfl
  | cons kv rest ih =>
    intro acc
    rw [List.foldl_cons, List.foldl_cons, ih (lwStep k acc kv),
      ih (lwStep k none kv)]
    cases rest.foldl (lwStep k) none with
    | some v => rfl
    | none =>
      by_cases hp : kv.1 = k
      · simp [lwStep, hp]
      · simp [lwStep, hp]

theorem writeMapFold_lookup (ops : List (Key × Value)) :
    ∀ (m : Stem → Option (Byte → Value)) (k : Key),
    (((ops.foldl (fun m kv => applyWrite m kv.1 kv.2) m) (stemOfKey k)).getD
        (fun _ => zeroValue)) (subIndex k) =
      match lastWrite ops k with
      | some v => v
      | none => ((m (stemOfKey k)).getD (fun _ => zeroValue)) (subIndex k) := by
  induction ops with
  | nil => intro m k; rfl
  | cons kv rest ih =>
    intro m k
    rw [List.foldl_cons, ih (applyWrite m kv.1 kv.2) k]
    rw [show lastWrite (kv :: rest) k = rest.foldl (lwStep k) (lwStep k none kv)
      from rfl]
    rw [lwStep_foldl_acc k rest (lwStep k none kv)]
    rw [show rest.foldl (lwStep k) none = lastWrite rest k from rfl]
    cases lastWrite rest k with
    | some v => rfl
    | none =>
      simp only [lwStep]
      rw [applyWrite_lookup]
      by_cases hp : kv.1 = k
      · rw [if_pos hp, if_pos (hp.symm)]
      · rw [if_neg hp, if_neg (fun he => hp he.symm)]

theorem Trie.empty_stemMapF (s' : Stem) : Trie.empty.stemMapF s' = none := by
  rfl

/-- Get-after-Set / last-write-wins / absent-reads-zero, for an arbitrary
sequence of writes applied to the empty trie. -/
theorem trieGet_lastWrite (ops : List (Key × Value)) (k : Key) :
    (writeOps ops).get k = (lastWrite ops k).getD zeroValue := by
  rw [writeOps, Trie.get_stemMapF _ (writeFold_wfRoot ops Trie.empty
    Trie.empty_wfRoot) k]
  rw [writeFold_stemMapF ops Trie.empty Trie.empty_wfRoot]
  rw [writeMapFold_lookup ops Trie.empty.stemMapF k]
  cases lastWrite ops k with
  | some v => rfl
  | none => rfl

/-- **C1.** After any sequence of `Set` writes, `Get(key)` returns the most
recently written value for that key, and the zero value for a key never
written; `Get` is a total function and never errors. -/
theorem claim_get_after_set (ops : List (Key × Value)) (k : Key) :
    (writeOps ops).get k = (lastWrite ops k).getD zeroValue :=
  trieGet_lastWrite ops k

/-! ### All-zero tries commit to the identity -/

/-- Every value stored anywhere in the subtree is the zero value. -/
def Node.allZero : Node → Prop
  | .empty => True
  | .inner ch => ∀ i, (ch i).allZero
  | .leaf _ vals => ∀ i, vals i = zeroValue

theorem lowHalf_zero : lowHalf zeroValue = 0 := by
  decide

theorem highHalf_zero : highHalf zeroValue = 0 := by
  decide

theorem leafCommit_zero (vals : Byte → Value) (h : ∀ i, vals i = zeroValue) :
    leafCommit vals = 0 := by
  have hl : (fun i => lowHalf (vals i)) = (0 : G) := by
    funext i
    rw [h i, lowHalf_zero]
    rfl
  have hh : (fun i => highHalf (vals i)) = (0 : G) := by
    funext i
    rw [h i, highHalf_zero]
    rfl
  rw [leafCommit, hl, hh, Commit_eq_self]
  funext j
  simp [Function.update_apply, Commit_eq_self, ToScalar_zero]

theorem Node.allZero_commit (n : Node) : n.allZero → n.commit = 0 := by
  induction n with
  | empty => intro _; rfl
  | leaf s vals =>
    intro h
    exact leafCommit_zero vals h
  | inner ch ih =>
    intro h
    have : (fun i => ToScalar ((ch i).commit)) = (0 : G) := by
      funext i
      rw [ih i (h i), ToScalar_zero]
      rfl
    rw [Node.commit, this, Commit_eq_self]

theorem splitChain_allZero (fuel : Nat) : ∀ (d : Nat) (s : Stem)
    (vals : Byte → Value) (k : Key),
    (∀ i, vals i = zeroValue) →
    (splitChain fuel d s vals k zeroValue).allZero := by
  induction fuel with
  | zero =>
    intro d s vals k hv i
    simp [singleValues, Function.update_apply]
  | succ fuel ih =>
    intro d s vals k hv
    rw [splitChain]
    split
    · intro i
      rw [Function.update_apply]
      split
      · exact ih (d + 1) s vals k hv
      · trivial
    · intro i
      rw [Function.update_apply, Function.update_apply]
      split
      · intro j
        simp [singleValues, Function.update_apply]
      · split
        · exact hv
        · trivial

theorem Node.set_allZero (n : Node) : ∀ (d : Nat) (k : Key), n.allZero →
    (n.set d k zeroValue).allZero := by
  induction n with
  | empty =>
    intro d k _ i
    simp [singleValues, Function.update_apply]
  | leaf s vals =>
    intro d k h
    by_cases hs : s = stemOfKey k
    · rw [show Node.set (.leaf s vals) d k zeroValue =
        .leaf s (Function.update vals (subIndex k) zeroValue) by
          simp [Node.set, hs]]
      intro i
      rw [Function.update_apply]
      split
      · rfl
      · exact h i
    · rw [show Node.set (.leaf s vals) d k zeroValue =
        splitChain (31 - d) d s vals k zeroValue by simp [Node.set, hs]]
      exact splitChain_allZero (31 - d) d s vals k h
  | inner ch ih =>
    intro d k h i
    simp only [Node.set, Function.update_apply]
    split
    · exact ih _ (d + 1) k (h _)
    · exact h i

/-- All-zero writes keep every root child all-zero. -/
theorem writeFold_allZero (ops : List (Key × Value))
    (hz : ∀ kv ∈ ops, kv.2 = zeroValue) : ∀ (t : Trie),
    (∀ i, (t.rootChildren i).allZero) →
    ∀ i, ((ops.foldl (fun t kv => t.set kv.1 kv.2) t).rootChildren i).allZero := by
  induction ops with
  | nil => intro t h; exact h
  | cons kv rest ih =>
    intro t h
    refine ih (fun kv' h' => hz kv' (List.mem_cons_of_mem kv h')) _ ?_
    intro i
    rw [Trie.set_rootChildren, Function.update_apply]
    split
    · rw [hz kv (List.mem_cons_self kv rest)]
      exact (t.rootChildren (keyByte kv.1 0)).set_allZero 1 kv.1 (h _)
    · exact h i

theorem Trie.commit_of_allZero (t : Trie) (hw : t.wfRoot)
    (h : ∀ i, (t.rootChildren i).allZero) : t.commit = Identity := by
  rcases hw.1 with hr | ⟨ch, hr⟩
  · rw [Trie.commit, hr]
    rfl
  · rw [Trie.commit, hr, Node.commit]
    have hch : ∀ i, (ch i).allZero := by
      intro i
      have := h i
      rw [Trie.rootChildren, hr] at this
      exact this
    have : (fun i => ToScalar ((ch i).commit)) = (0 : G) := by
      funext i
      rw [Node.allZero_commit (ch i) (hch i), ToScalar_zero]
      rfl
    rw [this, Commit_eq_self]
    rfl

/-- **C4.** `Update(Commit(v), i, v[i], v_new)` is
`Commit(v) + (v_new − v[i])·H_i`, and equals the commitment of `v` with
slot `i` replaced by `v_new`. -/
theorem claim_update_soundness (v : Fin 256 → F) (i : Fin 256) (vNew : F) :
    Update (Commit v) i (v i) vNew = Commit v + (vNew - v i) • H i ∧
    Update (Commit v) i (v i) vNew = Commit (Function.update v i vNew) :=
  ⟨rfl, Update_eq_commit_update v i vNew⟩

/-- **C5.** The empty trie and any trie built from writes of the zero value
commit to the identity, and the identity compresses to 32 zero bytes. -/
theorem claim_commit_identity (ops : List (Key × Value))
    (hz : ∀ kv ∈ ops, kv.2 = zeroValue) :
    Trie.commit Trie.empty = Identity ∧
    Trie.commit (writeOps ops) = Identity ∧
    Compress Identity = List.replicate 32 0 := by
  refine ⟨rfl, ?_, Compress_zero⟩
  exact Trie.commit_of_allZero (writeOps ops)
    (writeFold_wfRoot ops Trie.empty Trie.empty_wfRoot)
    (writeFold_allZero ops hz Trie.empty (fun i => trivial))

/-- Witness for C5 at a concrete write list. -/
theorem claim_commit_identity_witness :
    Trie.commit Trie.empty = Identity ∧
    Trie.commit (writeOps [(fun _ => 1, zeroValue)]) = Identity ∧
    Compress Identity = List.replicate 32 0 :=
  claim_commit_identity [(fun _ => 1, zeroValue)]
    (by intro kv h; simp at h; rw [h])

/-- **C6.** An opening of `Commit(v)` at position `i` verifies against the
committed value `v i` and fails against any other value. -/
theorem claim_open_verify (v : Fin 256 → F) (i : Fin 256) (y : F)
    (hy : y ≠ v i) :
    (Open (Commit v) v i).Verify (Commit v) i (v i) = true ∧
    (Open (Commit v) v i).Verify (Commit v) i y = false := by
  constructor
  · exact decide_eq_true ⟨rfl, rfl, rfl⟩
  · refine decide_eq_false ?_
    rintro ⟨-, -, h3⟩
    exact hy h3.symm

/-- Witness for C6 at a concrete vector, position and wrong value. -/
theorem claim_open_verify_witness :
    (Open (Commit fun _ => 0) (fun _ => 0) 0).Verify
        (Commit fun _ => 0) 0 ((fun _ : Fin 256 => (0 : F)) 0) = true ∧
    (Open (Commit fun _ => 0) (fun _ => 0) 0).Verify
        (Commit fun _ => 0) 0 1 = false :=
  claim_open_verify (fun _ => 0) 0 1 (by decide)

/-! ### Canonicity: a well-formed trie is determined by its stem map -/

/-- A node containing at least two distinct stems. -/
def Node.twoStems (n : Node) (d : Nat) : Prop :=
  ∃ sa sb, sa ≠ sb ∧ (n.stemMap d sa).isSome ∧ (n.stemMap d sb).isSome

/-- Every inner node of the subtree holds at least two distinct stems (inner
nodes arise only from stem splits, so reachable tries satisfy this below the
root). -/
def Node.goodInner : Node → List Byte → Prop
  | .empty, _ => True
  | .leaf _ _, _ => True
  | .inner ch, pref =>
    Node.twoStems (.inner ch) pref.length ∧ ∀ i, (ch i).goodInner (pref ++ [i])

/-- Stems present in a well-formed subtree extend its path. -/
theorem Node.stemMap_extends (n : Node) : ∀ (pref : List Byte), n.wf pref →
    ∀ s', (n.stemMap pref.length s').isSome → takeStem pref.length s' = pref := by
  induction n with
  | empty =>
    intro pref _ s' h
    simp [Node.stemMap] at h
  | leaf s vals =>
    intro pref hwf s' h
    rw [Node.stemMap] at h
    by_cases hs : s' = s
    · rw [hs]
      exact hwf.2
    · rw [if_neg hs] at h
      simp at h
  | inner ch ih =>
    intro pref hwf s' h
    rw [Node.stemMap] at h
    have := ih (stemByte s' pref.length) (pref ++ [stemByte s' pref.length])
      (hwf.2 _) s'
    rw [List.length_append, List.length_singleton] at this
    have h2 := this h
    rw [takeStem_succ] at h2
    exact (List.append_inj' h2 (by simp)).1

/-- Two well-formed, good subtrees with the same stem map are equal. -/
theorem Node.ext_of_stemMap (n : Node) : ∀ (n' : Node) (pref : List Byte),
    n.wf pref → n'.wf pref → n.goodInner pref → n'.goodInner pref →
    (∀ s', n.stemMap pref.length s' = n'.stemMap pref.length s') → n = n' := by
  induction n with
  | empty =>
    intro n' pref _ hw' _ hg' h
    cases n' with
    | empty => rfl
    | leaf s2 vals2 =>
      have := h s2
      simp [Node.stemMap] at this
    | inner ch2 =>
      obtain ⟨⟨sa, sb, hab, ha, hb⟩, -⟩ := hg'
      rw [← h sa] at ha
      simp [Node.stemMap] at ha
  | leaf s vals =>
    intro n' pref hw hw' hg hg' h
    cases n' with
    | empty =>
      have := h s
      simp [Node.stemMap] at this
    | leaf s2 vals2 =>
      have hs := h s
      rw [Node.stemMap, Node.stemMap, if_pos rfl] at hs
      by_cases h2 : s = s2
      · rw [if_pos h2] at hs
        rw [h2, Option.some_inj.mp hs]
      · rw [if_neg h2] at hs
        exact absurd hs (by simp)
    | inner ch2 =>
      obtain ⟨⟨sa, sb, hab, ha, hb⟩, -⟩ := hg'
      rw [← h sa] at ha
      rw [← h sb] at hb
      rw [Node.stemMap] at ha hb
      by_cases hsa : sa = s
      · by_cases hsb : sb = s
        · exact absurd (hsa.trans hsb.symm) hab
        · rw [if_neg hsb] at hb
          simp at hb
      · rw [if_neg hsa] at ha
        simp at ha
  | inner ch ih =>
    intro n' pref hw hw' hg hg' h
    cases n' with
    | empty =>
      obtain ⟨⟨sa, sb, hab, ha, hb⟩, -⟩ := hg
      rw [h sa] at ha
      simp [Node.stemMap] at ha
    | leaf s2 vals2 =>
      obtain ⟨⟨sa, sb, hab, ha, hb⟩, -⟩ := hg
      rw [h sa] at ha
      rw [h sb] at hb
      rw [Node.stemMap] at ha hb
      by_cases hsa : sa = s2
      · by_cases hsb : sb = s2
        · exact absurd (hsa.trans hsb.symm) hab
        · rw [if_neg hsb] at hb
          simp at hb
      · rw [if_neg hsa] at ha
        simp at ha
    | inner ch2 =>
      have hch : ch = ch2 := by
        funext i
        refine ih i (ch2 i) (pref ++ [i]) (hw.2 i) (hw'.2 i) (hg.2 i) (hg'.2 i) ?_
        intro s'
        rw [List.length_append, List.length_singleton]
        by_cases hb : stemByte s' pref.length = i
        · have := h s'
          rw [Node.stemMap, Node.stemMap, hb] at this
          exact this
        · have hnone : ∀ (m : Node), m.wf (pref ++ [i]) →
              m.stemMap (pref.length + 1) s' = none := by
            intro m hm
            by_contra hc
            have hsome : (m.stemMap (pref.length + 1) s').isSome := by
              cases hme : m.stemMap (pref.length + 1) s' with
              | none => exact absurd hme hc
              | some w => simp
            have := Node.stemMap_extends m (pref ++ [i]) hm s'
            rw [List.length_append, List.length_singleton] at this
            have h2 := this hsome
            rw [takeStem_succ] at h2
            have := (List.append_inj' h2 (by simp)).2
            simp at this
            exact hb this
          rw [hnone (ch i) (hw.2 i), hnone (ch2 i) (hw'.2 i)]
      rw [hch]

theorem splitChain_goodInner (fuel : Nat) : ∀ (d : Nat) (s : Stem)
    (vals : Byte → Value) (k : Key) (v : Value) (pref : List Byte),
    d = pref.length →
    takeStem d s = takeStem d (stemOfKey k) →
    (∃ j, d ≤ j ∧ j < 31 ∧ stemByte s j ≠ stemByte (stemOfKey k) j) →
    31 ≤ d + fuel →
    (splitChain fuel d s vals k v).goodInner pref := by
  induction fuel with
  | zero =>
    intro d s vals k v pref _ _ hdiv hfuel
    obtain ⟨j, hdj, hj31, _⟩ := hdiv
    omega
  | succ fuel ih =>
    intro d s vals k v pref hdp hsk hdiv hfuel
    obtain ⟨j, hdj, hj31, hjne⟩ := hdiv
    have hd31 : d < 31 := by omega
    have hkb : keyByte k d = stemByte (stemOfKey k) d := keyByte_eq_stemByte k d hd31
    have hsne : s ≠ stemOfKey k := by
      intro he
      exact hjne (by rw [he])
    have htwo : (splitChain (fuel + 1) d s vals k v).twoStems d := by
      refine ⟨stemOfKey k, s, Ne.symm hsne, ?_, ?_⟩
      · rw [splitChain_stemMap (fuel + 1) d s vals k v hsk ⟨j, hdj, hj31, hjne⟩
          (by omega), if_pos rfl]
        simp
      · rw [splitChain_stemMap (fuel + 1) d s vals k v hsk ⟨j, hdj, hj31, hjne⟩
          (by omega), if_neg hsne, if_pos rfl]
        simp
    by_cases hb : stemByte s d = keyByte k d
    · rw [splitChain, if_pos hb]
      rw [splitChain, if_pos hb] at htwo
      refine ⟨by rw [← hdp]; exact htwo, fun i => ?_⟩
      rw [Function.update_apply]
      by_cases hi : i = stemByte s d
      · rw [if_pos hi]
        refine ih (d + 1) s vals k v (pref ++ [i]) (by simp; omega) ?_ ?_ (by omega)
        · rw [takeStem_succ, takeStem_succ, hsk, hb, hkb]
        · refine ⟨j, ?_, hj31, hjne⟩
          rcases Nat.eq_or_lt_of_le hdj with hdj | hdj
          · exact absurd (hdj ▸ hjne) (by rw [hb, hkb]; simp)
          · omega
      · rw [if_neg hi]
        trivial
    · rw [splitChain, if_neg hb]
      rw [splitChain, if_neg hb] at htwo
      refine ⟨by rw [← hdp]; exact htwo, fun i => ?_⟩
      rw [Function.update_apply, Function.update_apply]
      by_cases hik : i = keyByte k d
      · rw [if_pos hik]
        trivial
      · rw [if_neg hik]
        by_cases his : i = stemByte s d
        · rw [if_pos his]
          trivial
        · rw [if_neg his]
          trivial

theorem Node.set_goodInner (n : Node) : ∀ (pref : List Byte), n.wf pref →
    n.goodInner pref → ∀ (k : Key) (v : Value),
    takeStem pref.length (stemOfKey k) = pref →
    (n.set pref.length k v).goodInner pref := by
  induction n with
  | empty =>
    intro pref _ _ k v _
    trivial
  | leaf s vals =>
    intro pref hwf _ k v hpk
    by_cases hs : s = stemOfKey k
    · rw [show Node.set (.leaf s vals) pref.length k v =
        .leaf s (Function.update vals (subIndex k) v) by simp [Node.set, hs]]
      trivial
    · rw [show Node.set (.leaf s vals) pref.length k v =
        splitChain (31 - pref.length) pref.length s vals k v by
          simp [Node.set, hs]]
      have hsk : takeStem pref.length s = takeStem pref.length (stemOfKey k) := by
        rw [hwf.2, hpk]
      have hdiv : ∃ j, pref.length ≤ j ∧ j < 31 ∧
          stemByte s j ≠ stemByte (stemOfKey k) j := by
        obtain ⟨j, hj31, hjne⟩ := stem_ne_iff s (stemOfKey k) hs
        refine ⟨j, ?_, hj31, hjne⟩
        by_contra hlt
        exact hjne ((takeStem_eq_iff pref.length s (stemOfKey k)).mp hsk j (by omega))
      exact splitChain_goodInner (31 - pref.length) pref.length s vals k v pref
        rfl hsk hdiv (by omega)
  | inner ch ih =>
    intro pref hwf hg k v hpk
    have hmap := Node.set_stemMap (.inner ch) pref hwf k v hpk
    simp only [Node.set] at hmap
    constructor
    · obtain ⟨⟨sa, sb, hab, ha, hb⟩, -⟩ := hg
      refine ⟨sa, sb, hab, ?_, ?_⟩
      · rw [hmap sa]
        by_cases hk : sa = stemOfKey k
        · rw [if_pos hk]
          simp
        · rw [if_neg hk]
          exact ha
      · rw [hmap sb]
        by_cases hk : sb = stemOfKey k
        · rw [if_pos hk]
          simp
        · rw [if_neg hk]
          exact hb
    · intro i
      simp only [Node.set, Function.update_apply]
      by_cases hi : i = keyByte k pref.length
      · rw [if_pos hi, hi]
        have hkb : keyByte k pref.length = stemByte (stemOfKey k) pref.length :=
          keyByte_eq_stemByte k pref.length (by have := hwf.1; omega)
        have := ih (keyByte k pref.length) (pref ++ [keyByte k pref.length])
          (hwf.2 _) (hg.2 _) k v
          (by rw [List.length_append, List.length_singleton, takeStem_succ,
            hpk, hkb])
        rw [List.length_append, List.length_singleton] at this
        exact this
      · rw [if_neg hi]
        exact hg.2 i


/-! ### Order independence of distinct-key writes -/

def Trie.goodRoot (t : Trie) : Prop :=
  ∀ i, (t.rootChildren i).goodInner [i]

theorem Trie.empty_goodRoot : Trie.empty.goodRoot := by
  intro i
  trivial

theorem Trie.set_goodRoot (t : Trie) (hw : t.wfRoot) (hg : t.goodRoot)
    (k : Key) (v : Value) : (t.set k v).goodRoot := by
  intro i
  rw [Trie.set_rootChildren, Function.update_apply]
  by_cases hi : i = keyByte k 0
  · rw [if_pos hi, hi]
    have := Node.set_goodInner (t.rootChildren (keyByte k 0)) [keyByte k 0]
      (hw.2 _) (hg _) k v
      (by
        rw [List.length_singleton,
          show takeStem 1 (stemOfKey k) = [stemByte (stemOfKey k) 0] by
            rw [takeStem_succ]; simp [takeStem]]
        rw [← keyByte_eq_stemByte k 0 (by omega)])
    rw [List.length_singleton] at this
    exact this
  · rw [if_neg hi]
    exact hg i

theorem writeFold_goodRoot (ops : List (Key × Value)) : ∀ (t : Trie),
    t.wfRoot → t.goodRoot →
    (ops.foldl (fun t kv => t.set kv.1 kv.2) t).goodRoot := by
  induction ops with
  | nil => intro t _ hg; exact hg
  | cons kv rest ih =>
    intro t hw hg
    exact ih _ (t.set_wfRoot hw kv.1 kv.2) (t.set_goodRoot hw hg kv.1 kv.2)

/-- The root commitment is the commitment of the root-children vector (the
empty root and the all-empty inner node commit alike). -/
theorem Trie.commit_children (t : Trie) (hw : t.wfRoot) :
    t.commit = Node.commit (.inner t.rootChildren) := by
  rcases hw.1 with hr | ⟨ch, hr⟩
  · rw [Trie.commit, hr, Trie.rootChildren, hr]
    rw [show Node.commit .empty = 0 from rfl, Node.commit]
    have : (fun i => ToScalar (Node.commit .empty)) = (0 : G) := by
      funext i
      rw [show Node.commit .empty = 0 from rfl, ToScalar_zero]
      rfl
    rw [this, Commit_eq_self]
  · rw [Trie.commit, hr, Trie.rootChildren, hr]

/-- Two reachable tries with the same stem map have the same root children. -/
theorem Trie.rootChildren_ext (t t' : Trie) (hw : t.wfRoot) (hw' : t'.wfRoot)
    (hg : t.goodRoot) (hg' : t'.goodRoot)
    (hmap : ∀ s', t.stemMapF s' = t'.stemMapF s') :
    t.rootChildren = t'.rootChildren := by
  funext i
  refine Node.ext_of_stemMap _ _ [i] (hw.2 i) (hw'.2 i) (hg i) (hg' i) ?_
  intro s'
  rw [List.length_singleton]
  by_cases hb : stemByte s' 0 = i
  · have := hmap s'
    rw [Trie.stemMapF, Trie.stemMapF, Node.stemMap, Node.stemMap, hb] at this
    exact this
  · have hnone : ∀ (m : Node), m.wf [i] → m.stemMap 1 s' = none := by
      intro m hm
      by_contra hc
      have hsome : (m.stemMap 1 s').isSome := by
        cases hme : m.stemMap 1 s' with
        | none => exact absurd hme hc
        | some w => simp
      have := Node.stemMap_extends m [i] hm s'
      rw [List.length_singleton] at this
      have h2 := this hsome
      rw [show takeStem 1 s' = [stemByte s' 0] by rw [takeStem_succ]; simp [takeStem]]
        at h2
      exact hb (by simpa using h2)
    rw [hnone _ (hw.2 i), hnone _ (hw'.2 i)]

/-- Writes at distinct keys commute on stem maps. -/
theorem applyWrite_comm (m : Stem → Option (Byte → Value)) (k1 k2 : Key)
    (v1 v2 : Value) (h : k1 ≠ k2) :
    applyWrite (applyWrite m k1 v1) k2 v2 =
      applyWrite (applyWrite m k2 v2) k1 v1 := by
  funext s
  by_cases h12 : stemOfKey k1 = stemOfKey k2
  · have hsub : subIndex k1 ≠ subIndex k2 := fun he => h (key_ext _ _ h12 he)
    by_cases hs : s = stemOfKey k2
    · simp only [applyWrite, hs, h12, if_true, eq_self_iff_true,
        Option.getD_some]
      rw [Function.update_comm hsub]
    · have hs1 : s ≠ stemOfKey k1 := fun he => hs (he.trans h12)
      simp only [applyWrite, if_neg hs, if_neg hs1]
  · by_cases hs2 : s = stemOfKey k2
    · have hs1 : s ≠ stemOfKey k1 := fun he => h12 (he.symm.trans hs2 ▸ rfl)
      simp only [applyWrite, if_pos hs2, if_neg hs1,
        if_neg (fun he : stemOfKey k2 = stemOfKey k1 => h12 he.symm)]
    · by_cases hs1 : s = stemOfKey k1
      · simp only [applyWrite, if_pos hs1, if_neg hs2,
          if_neg (fun he : stemOfKey k1 = stemOfKey k2 => h12 he)]
      · simp only [applyWrite, if_neg hs1, if_neg hs2]

theorem perm_foldl_applyWrite {l l' : List (Key × Value)} (hp : l.Perm l') :
    (l.map Prod.fst).Nodup →
    ∀ m, l.foldl (fun m kv => applyWrite m kv.1 kv.2) m =
      l'.foldl (fun m kv => applyWrite m kv.1 kv.2) m := by
  induction hp with
  | nil => intro _ m; rfl
  | cons x hp ih =>
    intro hnd m
    rw [List.foldl_cons, List.foldl_cons]
    exact ih (by simpa using (List.nodup_cons.mp (by simpa using hnd)).2) _
  | swap x y l =>
    intro hnd m
    rw [List.foldl_cons, List.foldl_cons, List.foldl_cons, List.foldl_cons]
    have hxy : y.1 ≠ x.1 := by
      simp only [List.map_cons, List.nodup_cons] at hnd
      exact fun he => hnd.1 (by rw [he]; exact List.mem_cons_self _ _)
    rw [applyWrite_comm m y.1 x.1 y.2 x.2 hxy]
  | trans hp1 hp2 ih1 ih2 =>
    intro hnd m
    rw [ih1 hnd m, ih2 ((hp1.map Prod.fst).nodup hnd) m]

/-- **C7 (amended).** Two permutations of a write list in which no key
occurs twice produce equal root commitments. -/
theorem claim_order_independence (l l' : List (Key × Value)) (hp : l.Perm l')
    (hnd : (l.map Prod.fst).Nodup) :
    (writeOps l).commit = (writeOps l').commit := by
  have hw : (writeOps l).wfRoot := writeFold_wfRoot l Trie.empty Trie.empty_wfRoot
  have hw' : (writeOps l').wfRoot :=
    writeFold_wfRoot l' Trie.empty Trie.empty_wfRoot
  rw [Trie.commit_children _ hw, Trie.commit_children _ hw']
  rw [Trie.rootChildren_ext (writeOps l) (writeOps l') hw hw'
    (writeFold_goodRoot l Trie.empty Trie.empty_wfRoot Trie.empty_goodRoot)
    (writeFold_goodRoot l' Trie.empty Trie.empty_wfRoot Trie.empty_goodRoot)
    ?hmq]
  case hmq =>
  intro s'
  rw [show (writeOps l).stemMapF = _ from
      writeFold_stemMapF l Trie.empty Trie.empty_wfRoot,
    show (writeOps l').stemMapF = _ from
      writeFold_stemMapF l' Trie.empty Trie.empty_wfRoot,
    perm_foldl_applyWrite hp hnd Trie.empty.stemMapF]


/-! ### Concrete commitments for the C7 counterexample -/

theorem Node.commit_inner_single (b : Byte) (n : Node) :
    Node.commit (.inner (Function.update (fun _ => .empty) b n)) =
      Pi.single b (ToScalar n.commit) := by
  rw [Node.commit, Commit_eq_self]
  funext j
  rw [Function.update_apply, Pi.single_apply]
  by_cases hj : j = b
  · rw [if_pos hj, if_pos hj]
  · rw [if_neg hj, if_neg hj]
    rw [show Node.commit .empty = 0 from rfl, ToScalar_zero]

theorem leafCommit_single (i : Byte) (v : Value) :
    leafCommit (Function.update (fun _ => zeroValue) i v) =
      Function.update
        (Function.update (fun _ => (0 : F)) 0 (lowHalf v * 2 ^ (i : Nat)))
        1 (highHalf v * 2 ^ (i : Nat)) := by
  rw [leafCommit]
  have hl : (fun j => lowHalf (Function.update (fun _ => zeroValue) i v j))
      = Pi.single i (lowHalf v) := by
    funext j
    rw [Function.update_apply, Pi.single_apply]
    by_cases hj : j = i
    · rw [if_pos hj, if_pos hj]
    · rw [if_neg hj, if_neg hj, lowHalf_zero]
  have hh : (fun j => highHalf (Function.update (fun _ => zeroValue) i v j))
      = Pi.single i (highHalf v) := by
    funext j
    rw [Function.update_apply, Pi.single_apply]
    by_cases hj : j = i
    · rw [if_pos hj, if_pos hj]
    · rw [if_neg hj, if_neg hj, highHalf_zero]
  rw [hl, hh]
  simp only [Commit_eq_self]
  rw [ToScalar_single, ToScalar_single]

theorem ToScalar_add (x y : G) : ToScalar (x + y) = ToScalar x + ToScalar y := by
  simp [ToScalar, add_mul, Finset.sum_add_distrib]

theorem ToScalar_two_slots (a b : F) :
    ToScalar (Function.update (Function.update (fun _ => (0 : F)) 0 a) 1 b) =
      a + 2 * b := by
  have hsplit : (Function.update (Function.update (fun _ => (0 : F)) 0 a) 1 b)
      = Pi.single (0 : Fin 256) a + Pi.single (1 : Fin 256) b := by
    funext j
    rw [Function.update_apply, Function.update_apply, Pi.add_apply,
      Pi.single_apply, Pi.single_apply]
    by_cases h1 : j = 1
    · rw [if_pos h1, if_pos h1, if_neg (by rw [h1]; decide)]
      rw [zero_add]
    · rw [if_neg h1, if_neg h1]
      by_cases h0 : j = 0
      · rw [if_pos h0, add_zero]
      · rw [if_neg h0, add_zero]
  rw [hsplit, ToScalar_add, ToScalar_single, ToScalar_single]
  norm_num
  ring

/-- The all-zero key used in concrete counterexamples. -/
def cxKey : Key := fun _ => 0

/-- A second key, differing from `cxKey` in its first byte. -/
def cxKey2 : Key := fun i => if i = 0 then 1 else 0

/-- A 32-byte value whose last byte is `c`. -/
def cxVal (c : Byte) : Value := fun i => if i = 31 then c else 0

theorem double_set_commit (v1 v2 : Value) :
    ((Trie.empty.set cxKey v1).set cxKey v2).commit =
      Pi.single (0 : Fin 256) (lowHalf v2 + 2 * highHalf v2) := by
  have hw1 := Trie.empty.set_wfRoot Trie.empty_wfRoot cxKey v1
  have hw2 := (Trie.empty.set cxKey v1).set_wfRoot hw1 cxKey v2
  rw [Trie.commit_children _ hw2, Trie.set_rootChildren, Trie.set_rootChildren]
  rw [show Trie.empty.rootChildren = (fun _ => .empty) from rfl]
  rw [show keyByte cxKey 0 = 0 from rfl]
  rw [Function.update_same, Function.update_idem]
  rw [show Node.set .empty 1 cxKey v1
    = .leaf (stemOfKey cxKey) (singleValues cxKey v1) from rfl]
  rw [show Node.set (.leaf (stemOfKey cxKey) (singleValues cxKey v1)) 1 cxKey v2
    = .leaf (stemOfKey cxKey)
        (Function.update (singleValues cxKey v1) (subIndex cxKey) v2) by
      simp [Node.set]]
  rw [show Function.update (singleValues cxKey v1) (subIndex cxKey) v2
    = singleValues cxKey v2 by
      rw [singleValues, singleValues, Function.update_idem]]
  rw [Node.commit_inner_single]
  rw [show Node.commit (.leaf (stemOfKey cxKey) (singleValues cxKey v2))
    = leafCommit (singleValues cxKey v2) from rfl]
  rw [show singleValues cxKey v2
    = Function.update (fun _ => zeroValue) 0 v2 from rfl]
  rw [leafCommit_single, ToScalar_two_slots]
  norm_num


/-- **C7 counterexample.**  The two orders of writing first `cxVal 1` then
`cxVal 2` (and conversely) to the same key are permutations of the same
key/value multiset, yet their root commitments differ: last-write-wins makes
`Commit` order-dependent when a key occurs twice. -/
theorem claim_order_independence_cx :
    List.Perm [(cxKey, cxVal 1), (cxKey, cxVal 2)]
      [(cxKey, cxVal 2), (cxKey, cxVal 1)] ∧
    (writeOps [(cxKey, cxVal 1), (cxKey, cxVal 2)]).commit ≠
      (writeOps [(cxKey, cxVal 2), (cxKey, cxVal 1)]).commit := by
  refine ⟨List.Perm.swap _ _ _, ?_⟩
  intro h
  rw [show writeOps [(cxKey, cxVal 1), (cxKey, cxVal 2)]
      = (Trie.empty.set cxKey (cxVal 1)).set cxKey (cxVal 2) from rfl] at h
  rw [show writeOps [(cxKey, cxVal 2), (cxKey, cxVal 1)]
      = (Trie.empty.set cxKey (cxVal 2)).set cxKey (cxVal 1) from rfl] at h
  rw [double_set_commit, double_set_commit] at h
  have h0 := congrFun h 0
  rw [Pi.single_eq_same, Pi.single_eq_same] at h0
  rw [show lowHalf (cxVal 2) = 0 from by decide,
    show highHalf (cxVal 2) = 2 from by decide,
    show lowHalf (cxVal 1) = 0 from by decide,
    show highHalf (cxVal 1) = 1 from by decide] at h0
  norm_num at h0
  exact absurd h0 (by decide)

/-- Witness for the amended C7 at a concrete two-element write list. -/
theorem claim_order_independence_witness :
    (writeOps [(cxKey, cxVal 1), (cxKey2, cxVal 2)]).commit =
      (writeOps [(cxKey2, cxVal 2), (cxKey, cxVal 1)]).commit :=
  claim_order_independence _ _ (List.Perm.swap _ _ _) (by decide)


/-! ## The state layer (`memory/state.go`, translated from the Go source) -/

/-- A 20-byte account address (`common.Address`). -/
abbrev Address := Fin 20 → Byte

/-- Truncate a natural number to a byte. -/
def natToByte (n : Nat) : Byte := ⟨n % 256, Nat.mod_lt _ (by omega)⟩

/-- The 4 big-endian bytes of a 32-bit word (`binary.BigEndian.PutUint32`;
the argument is truncated modulo `2^32` as Go's `uint32` conversion does). -/
def beBytes4 (n : Nat) : List Byte :=
  [natToByte (n / 2 ^ 24), natToByte (n / 2 ^ 16), natToByte (n / 2 ^ 8),
    natToByte n]

/-- Big-endian read of a byte list (`binary.BigEndian.Uint32` on 4 bytes,
and the big-endian interpretation of `amount.NewFromBytes`). -/
def beNat (l : List Byte) : Nat :=
  l.foldl (fun acc b => acc * 256 + (b : Nat)) 0

/-- The byte of a 32-byte value at a (possibly out-of-range) position. -/
def valueByte (v : Value) (j : Nat) : Nat :=
  if h : j < 32 then (v ⟨j, h⟩ : Nat) else 0

/-- The Go slice `value[lo:hi]` of a 32-byte value. -/
def valueSlice (v : Value) (lo hi : Nat) : List Byte :=
  (List.range (hi - lo)).map fun j =>
    if h : lo + j < 32 then v ⟨lo + j, h⟩ else 0

/-- Modelled from the spec: `stem(address, tree-index)`.  The spec derives
the stem by a fixed hash-to-field-then-projection function; the model packs
the 20 address bytes followed by the 11 big-endian bytes of the tree index,
which is deterministic and keeps all selectors of one account group under a
shared stem, as the spec requires. -/
def stemOf (a : Address) (treeIndex : Nat) : Stem := fun i =>
  if h : (i : Nat) < 20 then a ⟨i, h⟩
  else natToByte (treeIndex / 256 ^ (30 - (i : Nat)))

/-- The 32-byte key with the given stem and sub-index. -/
def keyFromStem (s : Stem) (sub : Byte) : Key := fun i =>
  if h : (i : Nat) < 31 then s ⟨i, h⟩ else sub

/-- Modelled from the spec: `getBasicDataKey` — the account header group
(tree-index 0) at sub-index 0. -/
def getBasicDataKey (a : Address) : Key := keyFromStem (stemOf a 0) 0

/-- Modelled from the spec: `getCodeHashKey` — the account header group at
sub-index 1. -/
def getCodeHashKey (a : Address) : Key := keyFromStem (stemOf a 0) 1

/-- Modelled from the spec: `getStorageKey` — storage slot `k` maps to
`(tree-index, sub-index) = (k div 256, k mod 256)` shifted past the header
group (the spec leaves the exact reservation rule to the implementation). -/
def getStorageKey (a : Address) (slot : Key) : Key :=
  let n := beNat (List.ofFn slot)
  keyFromStem (stemOf a (n / 256 + 1)) (natToByte (n % 256))

/-- Modelled from the spec: `getCodeChunkKey` — code chunk `i` lives at
sub-index `128 + i` of the header group, overflowing into higher tree
indices. -/
def getCodeChunkKey (a : Address) (i : Nat) : Key :=
  keyFromStem (stemOf a ((128 + i) / 256)) (natToByte ((128 + i) % 256))


/-- `vtSnapshot`: a commitment (32 compressed bytes) plus serialized trie
data. -/
structure VtSnapshot where
  commitment : List Byte
  data : List Byte
  deriving DecidableEq

/-- `vtSnapshot.GetMetaData()`: the commitment followed by the big-endian
part count, which is always 1. -/
def VtSnapshot.getMetaData (s : VtSnapshot) : List Byte :=
  s.commitment ++ beBytes4 1

/-- `vtArchive`: block-indexed snapshots with bookkeeping (the Go map is
modelled as an association list whose insert replaces any previous
binding). -/
structure VtArchive where
  snapshots : List (Nat × VtSnapshot)
  maxBlock : Nat
  hasBlocks : Bool
  maxSize : Nat
  oldestBlock : Nat

/-- `newVtArchive(maxSize)`. -/
def newVtArchive (maxSize : Nat) : VtArchive :=
  ⟨[], 0, false, maxSize, 0⟩

/-- Insertion into the modelled Go map. -/
def mapInsert (l : List (Nat × VtSnapshot)) (b : Nat) (s : VtSnapshot) :
    List (Nat × VtSnapshot) :=
  (l.filter fun kv => kv.1 ≠ b) ++ [(b, s)]

/-- `vtArchive.getBlock`. -/
def VtArchive.getBlock (a : VtArchive) (b : Nat) : Option VtSnapshot :=
  (a.snapshots.find? fun kv => kv.1 = b).map Prod.snd

/-- `vtArchive.pruneOldest`. -/
def VtArchive.pruneOldest (a : VtArchive) : VtArchive :=
  if a.snapshots.length = 0 then a
  else
    let snapshots := a.snapshots.filter fun kv => kv.1 ≠ a.oldestBlock
    let newOldest :=
      snapshots.foldl (fun acc kv => if kv.1 < acc then kv.1 else acc) a.maxBlock
    { a with snapshots := snapshots, oldestBlock := newOldest }

/-- The updated `maxBlock` of `vtArchive.addBlock`. -/
def addBlockMax (a : VtArchive) (block : Nat) : Nat :=
  if a.hasBlocks = false ∨ a.maxBlock < block then block else a.maxBlock

/-- The updated `hasBlocks` of `vtArchive.addBlock`. -/
def addBlockHas (a : VtArchive) (block : Nat) : Bool :=
  if a.hasBlocks = false ∨ a.maxBlock < block then true else a.hasBlocks

/-- The updated `oldestBlock` of `vtArchive.addBlock` (the Go source reads
the already-updated `hasBlocks` here). -/
def addBlockOldest (a : VtArchive) (block : Nat) : Nat :=
  if addBlockHas a block = false ∨ block < a.oldestBlock ∨ a.oldestBlock = 0
  then block else a.oldestBlock

/-- `vtArchive.addBlock`, including the max/oldest bookkeeping in the Go
source's order and the pruning trigger (`len(a.snapshots) > a.maxSize`
after insertion). -/
def VtArchive.addBlock (a : VtArchive) (block : Nat) (snap : VtSnapshot) :
    VtArchive :=
  if 0 < a.maxSize ∧ a.maxSize < (mapInsert a.snapshots block snap).length then
    (VtArchive.mk (mapInsert a.snapshots block snap) (addBlockMax a block)
      (addBlockHas a block) a.maxSize (addBlockOldest a block)).pruneOldest
  else
    ⟨mapInsert a.snapshots block snap, addBlockMax a block,
      addBlockHas a block, a.maxSize, addBlockOldest a block⟩

/-- `memory.State`: the trie, the archive, the written-slot tracker and the
archive bound. -/
structure State where
  trie : Trie
  archive : VtArchive
  writtenSlots : List (Address × Key)
  archiveMaxSize : Nat

/-- `newState()`: fresh state with an archive keeping 1000 blocks. -/
def newState : State :=
  ⟨Trie.empty, newVtArchive 1000, [], 1000⟩

/-- `State.GetBalance`: the basic-data value's bytes 16..31 read as a
big-endian amount (`amount.NewFromBytes(value[16:32]...)`). -/
def State.getBalance (s : State) (a : Address) : Nat :=
  beNat (valueSlice (s.trie.get (getBasicDataKey a)) 16 32)

/-- `State.GetNonce`: the basic-data value's bytes 8..15
(`common.Nonce(value[8:16])`). -/
def State.getNonce (s : State) (a : Address) : List Byte :=
  valueSlice (s.trie.get (getBasicDataKey a)) 8 16

/-- `State.GetCodeSize`: the basic-data value's bytes 4..7 as a big-endian
32-bit integer (`binary.BigEndian.Uint32(value[4:8])`). -/
def State.getCodeSize (s : State) (a : Address) : Nat :=
  beNat (valueSlice (s.trie.get (getBasicDataKey a)) 4 8)

/-- `State.GetStorage`. -/
def State.getStorage (s : State) (a : Address) (k : Key) : Value :=
  s.trie.get (getStorageKey a k)

/-- `State.GetCodeHash`. -/
def State.getCodeHash (s : State) (a : Address) : Value :=
  s.trie.get (getCodeHashKey a)

/-- `State.GetHash`: the compressed root commitment. -/
def State.getHash (s : State) : List Byte := Compress s.trie.commit


/-! ### Snapshot serialization (`serializeTrie` / `deserializeTrie`) -/

/-- The sampled address with the given first byte: `addr[0] = byte(addrByte)`
and all other bytes zero, as in `serializeTrie`'s loop. -/
def sampleAddr (b : Byte) : Address := fun i => if i = 0 then b else 0

/-- The sampled storage-slot key with `key[31] = byte(slotByte)`. -/
def slotKeyOf (b : Byte) : Key := fun i => if i = 31 then b else 0

/-- The keys `serializeTrie` probes: for each of the 256 sampled addresses,
the basic-data key, the code-hash key, the first 256 storage slots and the
first 1024 code chunks.  This is the address-space sampling of the Go
source, kept verbatim (a Go map collects the hits; the model keeps the
deterministic probe order, which the snapshot format does not constrain). -/
def candidateKeys : List Key :=
  (List.finRange 256).flatMap fun b =>
    getBasicDataKey (sampleAddr b) :: getCodeHashKey (sampleAddr b) ::
      (((List.finRange 256).map fun sb => getStorageKey (sampleAddr b) (slotKeyOf sb)) ++
        ((List.range 1024).map fun c => getCodeChunkKey (sampleAddr b) c))

/-- The non-zero entries `serializeTrie` collects. -/
def serializeEntries (t : Trie) : List (Key × Value) :=
  candidateKeys.filterMap fun k =>
    if t.get k = zeroValue then none else some (k, t.get k)

/-- `serializeTrie`: `[numEntries:u32-be]` followed by 64-byte
`[key:32][value:32]` records. -/
def serializeTrie (s : State) : List Byte :=
  beBytes4 (serializeEntries s.trie).length ++
    (serializeEntries s.trie).flatMap fun kv =>
      List.ofFn kv.1 ++ List.ofFn kv.2

/-- `State.CreateSnapshot()`: compressed commitment plus serialized trie. -/
def State.createSnapshot (s : State) : VtSnapshot :=
  ⟨Compress s.trie.commit, serializeTrie s⟩

/-- Read a 32-byte key or value out of a byte list. -/
def bytesToKey (l : List Byte) : Key := fun i => l.getD (i : Nat) 0

/-- The key/value records of a serialized part. -/
def parseEntries (data : List Byte) (n : Nat) : List (Key × Value) :=
  (List.range n).map fun i =>
    (bytesToKey ((data.drop (4 + 64 * i)).take 32),
     bytesToKey ((data.drop (4 + 64 * i + 32)).take 32))

/-- `deserializeTrie`: structural checks (length ≥ 4, exact length
`4 + n·64`), then a fresh trie with every record `Set`.  `none` models the
Go error return. -/
def deserializeTrie (data : List Byte) : Option Trie :=
  if data.length < 4 then none
  else
    let n := beNat (data.take 4)
    if data.length ≠ 4 + n * 64 then none
    else some (writeOps (parseEntries data n))

/-- `State.Restore`: `meta` and `part` are what the snapshot container's
`GetMetaData()` and `GetPartData(0)` return.  The metadata must be at least
32 bytes; the part must deserialize; the recomputed compressed commitment
must equal the first 32 metadata bytes.  `none` models the Go error
return. -/
def Restore (meta part : List Byte) : Option Trie :=
  if meta.length < 32 then none
  else
    match deserializeTrie part with
    | none => none
    | some t => if Compress t.commit = meta.take 32 then some t else none

/-- `State.GetArchiveState(block)`: look the block up in the archive and
restore a fresh state from its snapshot (sharing the archive). -/
def State.getArchiveState (s : State) (block : Nat) : Option State :=
  (s.archive.getBlock block).bind fun snap =>
    (Restore snap.getMetaData snap.data).map fun t =>
      ⟨t, s.archive, [], s.archiveMaxSize⟩


/-! ### Block application (`State.Apply`) -/

/-- Overwrite the value's byte at a position given by a `Nat` index. -/
def setValueByte (v : Value) (j : Nat) (b : Byte) : Value := fun i =>
  if (i : Nat) = j then b else v i

/-- Overwrite bytes `lo .. lo+len-1` of a value with `f 0 .. f (len-1)`. -/
def setValueRange (v : Value) (lo len : Nat) (f : Nat → Byte) : Value := fun i =>
  if lo ≤ (i : Nat) ∧ (i : Nat) < lo + len then f ((i : Nat) - lo) else v i

/-- Modelled: a deterministic stand-in for the external `common.Keccak256`
primitive (an external collaborator per spec §6; no claim depends on its
values, only on its determinism). -/
def keccakModel (code : List Byte) : Value :=
  let h := code.foldl (fun a b => a * 257 + (b : Nat) + 1) 1
  fun i => natToByte (h / 256 ^ (31 - (i : Nat)))

/-- `types.EmptyCodeHash` as the model hash of the empty byte string. -/
def emptyCodeHash : Value := keccakModel []

/-- Which bytes of a contract's code are the immediate data of a PUSH
opcode (opcodes `0x60`..`0x7f` carry 1..32 immediate bytes). -/
def markPushData : List Byte → List Bool
  | [] => []
  | op :: rest =>
    let n := if 96 ≤ (op : Nat) ∧ (op : Nat) ≤ 127 then (op : Nat) - 95 else 0
    false :: (List.replicate (min n rest.length) true ++ markPushData (rest.drop n))
termination_by l => l.length
decreasing_by
  simp
  have := List.length_drop n rest
  omega

/-- Modelled from the spec: `splitCode` — the contract bytecode partitioned
into 31-byte chunks, each prefixed by a tag byte counting the leading bytes
that are the tail of a PUSH immediate begun in an earlier chunk. -/
def splitCode (code : List Byte) : List Value :=
  let flags := markPushData code
  (List.range ((code.length + 30) / 31)).map fun i =>
    let tag := ((flags.drop (31 * i)).takeWhile (fun b => b = true)).length
    fun j : Fin 32 =>
      if j = 0 then natToByte (min tag 31)
      else (code.getD (31 * i + (j : Nat) - 1) 0)

/-- `update.CreatedAccounts` loop body: an account whose code size, nonce
and balance bytes (`value[4:32]`) are all zero is initialised with the empty
code hash. -/
def applyCreatedAccount (t : Trie) (a : Address) : Trie :=
  let accountKey := getBasicDataKey a
  let value := t.get accountKey
  if valueSlice value 4 32 = List.replicate 28 0 then
    (t.set accountKey value).set (getCodeHashKey a) emptyCodeHash
  else t

/-- `update.Nonces` entries: an account and its 8-byte nonce. -/
structure NonceUpdate where
  account : Address
  nonce : Fin 8 → Byte

/-- `update.Nonces` loop body: `copy(value[8:16], update.Nonce[:])`. -/
def applyNonce (t : Trie) (u : NonceUpdate) : Trie :=
  let key := getBasicDataKey u.account
  t.set key (setValueRange (t.get key) 8 8 fun j =>
    if h : j < 8 then u.nonce ⟨j, h⟩ else 0)

/-- `update.Balances` entries: an account and its numeric balance. -/
structure BalanceUpdate where
  account : Address
  balance : Nat

/-- `update.Balances` loop body: the low 16 bytes of the 32-byte big-endian
balance are copied into `value[16:32]`. -/
def applyBalance (t : Trie) (u : BalanceUpdate) : Trie :=
  let key := getBasicDataKey u.account
  t.set key (setValueRange (t.get key) 16 16 fun j =>
    natToByte (u.balance / 256 ^ (15 - j)))

/-- `update.Slots` entries. -/
structure SlotUpdate where
  account : Address
  key : Key
  value : Value

/-- `update.Slots` loop body. -/
def applySlot (t : Trie) (u : SlotUpdate) : Trie :=
  t.set (getStorageKey u.account u.key) u.value

/-- `update.Codes` entries. -/
structure CodeUpdate where
  account : Address
  code : List Byte

/-- `update.Codes` loop body: store the code length in `value[4:8]`, the
code hash, and every code chunk. -/
def applyCode (t : Trie) (u : CodeUpdate) : Trie :=
  let key := getBasicDataKey u.account
  let value := t.get key
  let size := u.code.length
  let t1 := t.set key (setValueRange value 4 4 fun j =>
    natToByte (size / 256 ^ (3 - j)))
  let t2 := t1.set (getCodeHashKey u.account) (keccakModel u.code)
  (splitCode u.code).enum.foldl
    (fun t ci => t.set (getCodeChunkKey u.account ci.1) ci.2) t2

/-- `common.Update`: the per-block write set. -/
structure StateUpdate where
  createdAccounts : List Address
  nonces : List NonceUpdate
  balances : List BalanceUpdate
  slots : List SlotUpdate
  codes : List CodeUpdate

/-- The empty update. -/
def StateUpdate.empty : StateUpdate := ⟨[], [], [], [], []⟩

/-- The trie after all five `Apply` loops, in the Go source's order. -/
def applyTrie (t : Trie) (u : StateUpdate) : Trie :=
  let t1 := u.createdAccounts.foldl applyCreatedAccount t
  let t2 := u.nonces.foldl applyNonce t1
  let t3 := u.balances.foldl applyBalance t2
  let t4 := u.slots.foldl applySlot t3
  u.codes.foldl applyCode t4

/-- `State.Apply(block, update)`: apply the update's writes, track written
slots, then archive the post-apply state under the block number.  The Go
version returns an error only if archiving fails, which it never does, so
the model is total. -/
def State.apply (s : State) (block : Nat) (u : StateUpdate) : State :=
  let s' : State :=
    ⟨applyTrie s.trie u, s.archive,
      s.writtenSlots ++ u.slots.map (fun su => (su.account, su.key)),
      s.archiveMaxSize⟩
  ⟨s'.trie, s'.archive.addBlock block s'.createSnapshot, s'.writtenSlots,
    s'.archiveMaxSize⟩


/-! ### Witness proofs (`vtWitnessProof`) -/

/-- The tribool of `common/tribool`. -/
inductive Tribool where
  | ff : Tribool
  | tt : Tribool
  | unknown : Tribool
  deriving DecidableEq

/-- `bytes.Compare`: lexicographic comparison of byte strings. -/
def bytesCompare : List Byte → List Byte → Ordering
  | [], [] => .eq
  | [], _ :: _ => .lt
  | _ :: _, [] => .gt
  | x :: xs, y :: ys =>
    if x < y then .lt else if y < x then .gt else bytesCompare xs ys

/-- `vtWitnessProof`: the state data a witness proof carries (the Go
storage map is modelled as an association list). -/
structure VtWitnessProof where
  rootHash : List Byte
  address : Address
  balance : Nat
  nonce : Fin 8 → Byte
  codeHash : Value
  storage : List (Key × Value)
  existsFlag : Bool

/-- Whether a storage key lies in the closed range `[lo, hi]`
(`bytes.Compare(key, from) >= 0 && bytes.Compare(key, to) <= 0`). -/
def keyInRange (lo hi k : Key) : Prop :=
  bytesCompare (List.ofFn k) (List.ofFn lo) ≠ Ordering.lt ∧
  bytesCompare (List.ofFn k) (List.ofFn hi) ≠ Ordering.gt

instance (lo hi k : Key) : Decidable (keyInRange lo hi k) := by
  unfold keyInRange
  infer_instance

/-- `vtWitnessProof.AllStatesZero(root, address, from, to)`: `Unknown` when
the root or address does not match; otherwise `False` when some storage
entry of the proof lies in the range and is non-zero, and `True`
otherwise. -/
def VtWitnessProof.allStatesZero (p : VtWitnessProof) (root : List Byte)
    (addr : Address) (lo hi : Key) : Tribool :=
  if root ≠ p.rootHash ∨ addr ≠ p.address then .unknown
  else if p.storage.any (fun kv =>
      decide (keyInRange lo hi kv.1) && decide (kv.2 ≠ zeroValue))
  then .ff else .tt


/-- The membership form of the storage scan in `AllStatesZero`. -/
theorem allStatesZero_any_iff (p : VtWitnessProof) (lo hi : Key) :
    (p.storage.any fun kv =>
      decide (keyInRange lo hi kv.1) && decide (kv.2 ≠ zeroValue)) = true ↔
      ∃ kv ∈ p.storage, keyInRange lo hi kv.1 ∧ kv.2 ≠ zeroValue := by
  rw [List.any_eq_true]
  constructor
  · rintro ⟨kv, hm, hp⟩
    rw [Bool.and_eq_true, decide_eq_true_eq, decide_eq_true_eq] at hp
    exact ⟨kv, hm, hp⟩
  · rintro ⟨kv, hm, hp⟩
    refine ⟨kv, hm, ?_⟩
    rw [Bool.and_eq_true, decide_eq_true_eq, decide_eq_true_eq]
    exact hp

/-- **C10.** With matching root and address, `AllStatesZero` never returns
Unknown: it returns False exactly when some storage entry recorded in the
proof lies in `[lo, hi]` and is non-zero, and True otherwise — even when
the range contains storage keys the proof does not cover. -/
theorem claim_all_states_zero (p : VtWitnessProof) (root : List Byte)
    (addr : Address) (lo hi : Key) (h1 : root = p.rootHash)
    (h2 : addr = p.address) :
    p.allStatesZero root addr lo hi ≠ Tribool.unknown ∧
    (p.allStatesZero root addr lo hi = Tribool.ff ↔
      ∃ kv ∈ p.storage, keyInRange lo hi kv.1 ∧ kv.2 ≠ zeroValue) ∧
    (p.allStatesZero root addr lo hi = Tribool.tt ↔
      ¬ ∃ kv ∈ p.storage, keyInRange lo hi kv.1 ∧ kv.2 ≠ zeroValue) := by
  have hcond : ¬(root ≠ p.rootHash ∨ addr ≠ p.address) := by
    push_neg
    exact ⟨h1, h2⟩
  rw [VtWitnessProof.allStatesZero, if_neg hcond]
  by_cases ha : (p.storage.any fun kv =>
      decide (keyInRange lo hi kv.1) && decide (kv.2 ≠ zeroValue)) = true
  · rw [if_pos ha]
    exact ⟨by decide, iff_of_true rfl ((allStatesZero_any_iff p lo hi).mp ha),
      iff_of_false (by decide)
        (fun hn => hn ((allStatesZero_any_iff p lo hi).mp ha))⟩
  · rw [if_neg ha]
    exact ⟨by decide,
      iff_of_false (by decide) (fun hex => ha ((allStatesZero_any_iff p lo hi).mpr hex)),
      iff_of_true rfl (fun hex => ha ((allStatesZero_any_iff p lo hi).mpr hex))⟩

/-- A concrete witness proof for the C10 witness. -/
def cxProof : VtWitnessProof :=
  ⟨List.replicate 32 0, sampleAddr 0, 0, (fun _ => 0), zeroValue,
    [(slotKeyOf 1, cxVal 1)], true⟩

/-- Witness for C10 at a concrete proof, range and matching root/address. -/
theorem claim_all_states_zero_witness :
    cxProof.allStatesZero (List.replicate 32 0) (sampleAddr 0)
        (slotKeyOf 0) (slotKeyOf 9) ≠ Tribool.unknown ∧
    (cxProof.allStatesZero (List.replicate 32 0) (sampleAddr 0)
        (slotKeyOf 0) (slotKeyOf 9) = Tribool.ff ↔
      ∃ kv ∈ cxProof.storage,
        keyInRange (slotKeyOf 0) (slotKeyOf 9) kv.1 ∧ kv.2 ≠ zeroValue) ∧
    (cxProof.allStatesZero (List.replicate 32 0) (sampleAddr 0)
        (slotKeyOf 0) (slotKeyOf 9) = Tribool.tt ↔
      ¬ ∃ kv ∈ cxProof.storage,
        keyInRange (slotKeyOf 0) (slotKeyOf 9) kv.1 ∧ kv.2 ≠ zeroValue) :=
  claim_all_states_zero cxProof (List.replicate 32 0) (sampleAddr 0)
    (slotKeyOf 0) (slotKeyOf 9) rfl rfl

/-! ### The BasicData layout (C8) -/

/-- The spec's packed-layout decoder for the code size: bytes[4..8] as a
big-endian 32-bit integer. -/
def specCodeSize (v : Value) : Nat :=
  valueByte v 4 * 2 ^ 24 + valueByte v 5 * 2 ^ 16 +
    valueByte v 6 * 2 ^ 8 + valueByte v 7

/-- The spec's packed-layout decoder for the nonce: bytes[8..16]. -/
def specNonceBytes (v : Value) : List Byte :=
  [v 8, v 9, v 10, v 11, v 12, v 13, v 14, v 15]

/-- The spec's packed-layout decoder for the balance: bytes[16..32] as a
big-endian amount. -/
def specBalance (v : Value) : Nat :=
  valueByte v 16 * 256 ^ 15 + valueByte v 17 * 256 ^ 14 +
    valueByte v 18 * 256 ^ 13 + valueByte v 19 * 256 ^ 12 +
    valueByte v 20 * 256 ^ 11 + valueByte v 21 * 256 ^ 10 +
    valueByte v 22 * 256 ^ 9 + valueByte v 23 * 256 ^ 8 +
    valueByte v 24 * 256 ^ 7 + valueByte v 25 * 256 ^ 6 +
    valueByte v 26 * 256 ^ 5 + valueByte v 27 * 256 ^ 4 +
    valueByte v 28 * 256 ^ 3 + valueByte v 29 * 256 ^ 2 +
    valueByte v 30 * 256 + valueByte v 31

/-- **C8.** The account getters decode the packed BasicData value at
sub-index 0 of the account's stem exactly as the spec's layout states:
code size from bytes 4..8 (big-endian 32-bit), nonce from bytes 8..16,
balance from bytes 16..32 (big-endian). -/
theorem claim_basic_data_layout (s : State) (a : Address) :
    s.getCodeSize a = specCodeSize (s.trie.get (getBasicDataKey a)) ∧
    s.getNonce a = specNonceBytes (s.trie.get (getBasicDataKey a)) ∧
    s.getBalance a = specBalance (s.trie.get (getBasicDataKey a)) := by
  refine ⟨?_, rfl, ?_⟩
  · rw [State.getCodeSize, specCodeSize]
    simp [beNat, valueSlice, valueByte, List.range_succ]
    ring
  · rw [State.getBalance, specBalance]
    simp [beNat, valueSlice, valueByte, List.range_succ]
    ring


/-! ### Restore error conditions (C3) -/

/-- `Restore` succeeds exactly when the metadata is long enough, the part
deserializes, and the recomputed compressed commitment matches. -/
theorem Restore_isSome_iff (meta part : List Byte) :
    (Restore meta part).isSome = true ↔
      32 ≤ meta.length ∧
        ∃ t, deserializeTrie part = some t ∧
          Compress t.commit = meta.take 32 := by
  rw [Restore]
  by_cases hm : meta.length < 32
  · rw [if_pos hm]
    simp
    omega
  · rw [if_neg hm]
    cases hd : deserializeTrie part with
    | none => simp
    | some t =>
      change (if Compress t.commit = List.take 32 meta then some t
        else none).isSome = true ↔ _
      by_cases hc : Compress t.commit = meta.take 32
      · rw [if_pos hc]
        simp only [Option.isSome_some, true_iff]
        exact ⟨by omega, t, rfl, hc⟩
      · rw [if_neg hc]
        constructor
        · intro hs
          exact absurd hs (by decide)
        · rintro ⟨-, t', ht', hc'⟩
          rw [← Option.some_inj.mp ht'] at hc'
          exact absurd hc' hc

/-- **C3 (amended).** `Restore` fails exactly when the metadata is shorter
than 32 bytes, the part data fails the structural checks of
`deserializeTrie` (shorter than 4 bytes, or a length disagreeing with the
record-count header), or the recomputed compressed root commitment differs
from the 32 commitment bytes carried in the metadata.  The part count
recorded in the metadata is not consulted. -/
theorem claim_restore_conditions (meta part : List Byte) :
    (Restore meta part).isSome = true ↔
      32 ≤ meta.length ∧
        ∃ t, deserializeTrie part = some t ∧
          Compress t.commit = meta.take 32 :=
  Restore_isSome_iff meta part

/-- The metadata of the C3 counterexample: a valid 32-byte commitment of
the empty trie followed by a part count of 2. -/
def cxMeta3 : List Byte := List.replicate 32 0 ++ beBytes4 2

/-- The part data of the C3 counterexample: zero records. -/
def cxPart3 : List Byte := beBytes4 0

/-- **C3 counterexample.**  A snapshot whose metadata records a part count
of 2 restores successfully: `Restore` never checks the part count, so
"error exactly when … part count ≠ 1 …" fails on this input. -/
theorem claim_restore_partcount_cx :
    (Restore cxMeta3 cxPart3).isSome = true ∧
    beNat ((cxMeta3.drop 32).take 4) = 2 := by
  constructor
  · rw [show Restore cxMeta3 cxPart3 =
        (if Compress (writeOps (parseEntries cxPart3 0)).commit =
            cxMeta3.take 32 then
          some (writeOps (parseEntries cxPart3 0)) else none) from by
      rw [Restore, if_neg (by decide), deserializeTrie, if_neg (by decide)]
      rw [if_neg (by decide)]
      rfl]
    rw [show (writeOps (parseEntries cxPart3 0)).commit = 0 from rfl,
      Compress_zero, if_pos (by decide)]
    rfl
  · decide


/-! ### Address-space sampling in serializeTrie (C2) -/

/-- `Get` after a single `Set` on the empty trie. -/
theorem single_set_get (k k' : Key) (v : Value) :
    (Trie.empty.set k v).get k' = if k' = k then v else zeroValue := by
  have h := trieGet_lastWrite [(k, v)] k'
  rw [show writeOps [(k, v)] = Trie.empty.set k v from rfl] at h
  rw [h]
  by_cases hk : k' = k
  · simp [lastWrite, lwStep, hk]
  · rw [if_neg hk]
    simp only [lastWrite, lwStep, List.foldl_cons, List.foldl_nil]
    rw [if_neg (fun he : k = k' => hk he.symm)]
    rfl

/-- Every key `serializeTrie` ever probes carries a sampled address whose
second byte is zero. -/
theorem candidateKeys_byte1 : ∀ k ∈ candidateKeys, k ⟨1, by omega⟩ = 0 := by
  intro k hk
  rw [candidateKeys] at hk
  simp only [List.mem_flatMap, List.mem_cons, List.mem_append,
    List.mem_map] at hk
  obtain ⟨b, -, hcase⟩ := hk
  rcases hcase with h | h | ⟨sb, -, h⟩ | ⟨c, -, h⟩
  · rw [h]
    rfl
  · rw [h]
    rfl
  · rw [← h]
    rfl
  · rw [← h]
    rfl

/-- If a key's second byte is non-zero, the snapshot serialization of a
trie holding only that key collects nothing. -/
theorem serializeEntries_offSample (k : Key) (v : Value)
    (hb : k ⟨1, by omega⟩ ≠ 0) :
    serializeEntries (Trie.empty.set k v) = [] := by
  rw [serializeEntries]
  refine List.filterMap_eq_nil_iff.mpr ?_
  intro k' hk'
  have h1 := candidateKeys_byte1 k' hk'
  have hne : k' ≠ k := by
    intro he
    rw [he] at h1
    exact hb h1
  rw [single_set_get, if_neg hne, if_pos rfl]

/-- The address the C2 counterexample stores under: its second byte is 1,
outside the `addr[0]`-only sample range of `serializeTrie`. -/
def cxAddr2 : Address := fun i => if i = 1 then 1 else 0

/-- The trie of the C2 exhibit: one non-zero account record at an address
`serializeTrie` never probes. -/
def cxBugTrie : Trie := Trie.empty.set (getBasicDataKey cxAddr2) (cxVal 1)

/-- **C2 (code evaluated at the failing input).**  The trie stores a
non-zero value under `getBasicDataKey cxAddr2`, yet `serializeTrie`
collects no entries at all: the snapshot part does not cover every
non-zero key/value pair, because the implementation samples a prefix of
the address space instead of enumerating stored keys. -/
theorem claim_snapshot_sampling_bug :
    cxBugTrie.get (getBasicDataKey cxAddr2) = cxVal 1 ∧
    cxVal 1 ≠ zeroValue ∧
    serializeEntries cxBugTrie = [] := by
  refine ⟨?_, by decide, ?_⟩
  · rw [cxBugTrie, single_set_get, if_pos rfl]
  · exact serializeEntries_offSample _ _ (by decide)


/-! ### Archive round-trips (C9) -/

/-- The root commitment of a trie holding exactly one written key. -/
theorem single_set_commit (k : Key) (v : Value) :
    (Trie.empty.set k v).commit =
      Pi.single (keyByte k 0)
        (lowHalf v * 2 ^ ((subIndex k : Nat)) +
          2 * (highHalf v * 2 ^ ((subIndex k : Nat)))) := by
  have hw1 := Trie.empty.set_wfRoot Trie.empty_wfRoot k v
  rw [Trie.commit_children _ hw1, Trie.set_rootChildren]
  rw [show Trie.empty.rootChildren = (fun _ => .empty) from rfl]
  rw [show Node.set ((fun _ => Node.empty) (keyByte k 0)) 1 k v
    = .leaf (stemOfKey k) (singleValues k v) from rfl]
  rw [Node.commit_inner_single]
  rw [show Node.commit (.leaf (stemOfKey k) (singleValues k v))
    = leafCommit (singleValues k v) from rfl]
  rw [show singleValues k v
    = Function.update (fun _ => zeroValue) (subIndex k) v from rfl]
  rw [leafCommit_single, ToScalar_two_slots]

/-- Every compressed commitment is 32 bytes long. -/
theorem Compress_length (C : G) : (Compress C).length = 32 := by
  rw [Compress]
  by_cases h : C = 0
  · rw [if_pos h]
    simp
  · rw [if_neg h]
    simp

/-- Finding the just-inserted block in the modelled Go map. -/
theorem mapInsert_find (l : List (Nat × VtSnapshot)) (b : Nat)
    (s : VtSnapshot) :
    ((mapInsert l b s).find? fun kv => kv.1 = b) = some (b, s) := by
  rw [mapInsert, List.find?_append]
  rw [List.find?_eq_none.mpr]
  · rw [Option.none_or]
    simp [List.find?_cons]
  · intro kv hkv
    have := (List.mem_filter.mp hkv).2
    simpa using this

/-- `addBlock` below capacity stores the snapshot retrievably. -/
theorem addBlock_getBlock (a : VtArchive) (block : Nat) (snap : VtSnapshot)
    (hsize : a.snapshots.length < a.maxSize) :
    (a.addBlock block snap).getBlock block = some snap := by
  rw [VtArchive.addBlock]
  have hlen : (mapInsert a.snapshots block snap).length ≤ a.maxSize := by
    rw [mapInsert, List.length_append, List.length_singleton]
    have := List.length_filter_le (fun kv : Nat × VtSnapshot => kv.1 ≠ block)
      a.snapshots
    omega
  rw [if_neg (by push_neg; intro _; omega)]
  rw [VtArchive.getBlock]
  rw [show (VtArchive.mk (mapInsert a.snapshots block snap)
      (addBlockMax a block) (addBlockHas a block) a.maxSize
      (addBlockOldest a block)).snapshots
    = mapInsert a.snapshots block snap from rfl]
  rw [mapInsert_find]
  rfl

/-- A successful `Restore` recomputes exactly the metadata commitment. -/
theorem Restore_some_commit (meta part : List Byte) (t : Trie)
    (h : Restore meta part = some t) :
    Compress t.commit = meta.take 32 := by
  rw [Restore] at h
  by_cases hm : meta.length < 32
  · rw [if_pos hm] at h
    exact absurd h (by simp)
  · rw [if_neg hm] at h
    cases hd : deserializeTrie part with
    | none =>
      rw [hd] at h
      exact absurd h (by simp)
    | some t' =>
      rw [hd] at h
      change (if Compress t'.commit = List.take 32 meta then some t'
        else none) = some t at h
      by_cases hc : Compress t'.commit = List.take 32 meta
      · rw [if_pos hc] at h
        rw [← Option.some_inj.mp h]
        exact hc
      · rw [if_neg hc] at h
        exact absurd h (by simp)


set_option maxRecDepth 4000 in
/-- **C9 (amended).** A successful `Apply(block, update)` stores the
snapshot of the post-apply state in the archive under that block (as long
as the archive is below its retention bound, 1000 blocks by default), and
whenever a later `GetArchiveState(block)` succeeds it returns a state
whose `GetHash` equals the post-apply root hash.  (`GetArchiveState` can
fail even for an archived block: the snapshot's sampled serialization may
omit stored keys, making the restore's commitment check fail — see the
counterexample.) -/
theorem claim_archive_roundtrip (s : State) (block : Nat) (u : StateUpdate)
    (hsize : s.archive.snapshots.length < s.archive.maxSize) :
    (s.apply block u).archive.getBlock block =
      some (State.createSnapshot (s.apply block u)) ∧
    ∀ t, (s.apply block u).getArchiveState block = some t →
      t.getHash = (s.apply block u).getHash := by
  have hblk : (s.apply block u).archive.getBlock block =
      some (State.createSnapshot (s.apply block u)) := by
    rw [show (s.apply block u).archive =
      s.archive.addBlock block (State.createSnapshot (s.apply block u)) from rfl]
    exact addBlock_getBlock s.archive block _ hsize
  refine ⟨hblk, ?_⟩
  intro t ht
  rw [State.getArchiveState, hblk, Option.some_bind] at ht
  cases hr : Restore (State.createSnapshot (s.apply block u)).getMetaData
      (State.createSnapshot (s.apply block u)).data with
  | none =>
    rw [hr] at ht
    exact absurd ht (by simp)
  | some t' =>
    rw [hr, Option.map_some'] at ht
    have hc := Restore_some_commit _ _ _ hr
    rw [VtSnapshot.getMetaData,
      show (State.createSnapshot (s.apply block u)).commitment
        = Compress (s.apply block u).trie.commit from rfl] at hc
    have h32 : (Compress (s.apply block u).trie.commit ++ beBytes4 1).take 32
        = Compress (s.apply block u).trie.commit := by
      have hlen := Compress_length (s.apply block u).trie.commit
      rw [← hlen]
      exact List.take_left _ _
    rw [h32] at hc
    rw [← Option.some_inj.mp ht]
    rw [show (⟨t', (s.apply block u).archive, [],
        (s.apply block u).archiveMaxSize⟩ : State).getHash
      = Compress t'.commit from rfl]
    rw [State.getHash, hc]

/-- Witness for the amended C9 at the fresh state and the empty update. -/
theorem claim_archive_roundtrip_witness :
    (newState.apply 1 StateUpdate.empty).archive.getBlock 1 =
      some (State.createSnapshot (newState.apply 1 StateUpdate.empty)) ∧
    ∀ t, (newState.apply 1 StateUpdate.empty).getArchiveState 1 = some t →
      t.getHash = (newState.apply 1 StateUpdate.empty).getHash :=
  claim_archive_roundtrip newState 1 StateUpdate.empty (by decide)


/-- The update of the C9 counterexample: one balance write at an address
outside the sampled range of `serializeTrie`. -/
def cxUpdate9 : StateUpdate := ⟨[], [], [⟨cxAddr2, 7⟩], [], []⟩

/-- The state of the C9 counterexample. -/
def cxState9 : State := newState.apply 1 cxUpdate9

/-- The intermediate (pre-archive) state `Apply` builds for the C9
counterexample; its trie is the post-apply trie. -/
def cxState9Pre : State :=
  ⟨applyTrie newState.trie cxUpdate9, newState.archive,
    newState.writtenSlots ++ cxUpdate9.slots.map (fun su => (su.account, su.key)),
    newState.archiveMaxSize⟩

/-- The snapshot `Apply` archives for the C9 counterexample. -/
def cxSnap9 : VtSnapshot := State.createSnapshot cxState9Pre

/-- The basic-data value written by the counterexample's balance update. -/
def cxVal9 : Value :=
  setValueRange zeroValue 16 16 fun j => natToByte (7 / 256 ^ (15 - j))

theorem cxState9Pre_trie :
    cxState9Pre.trie = Trie.empty.set (getBasicDataKey cxAddr2) cxVal9 := rfl

theorem cxState9_commit_ne : cxState9Pre.trie.commit ≠ 0 := by
  intro h
  rw [cxState9Pre_trie, single_set_commit] at h
  have h0 := congrFun h (keyByte (getBasicDataKey cxAddr2) 0)
  rw [Pi.single_eq_same] at h0
  rw [show lowHalf cxVal9 = 0 from by decide,
    show highHalf cxVal9 = 7 from by decide,
    show ((subIndex (getBasicDataKey cxAddr2) : Nat)) = 0 from rfl] at h0
  norm_num at h0
  exact absurd h0 (by decide)

theorem cxState9_entries : serializeEntries cxState9Pre.trie = [] := by
  rw [cxState9Pre_trie]
  exact serializeEntries_offSample _ _ (by decide)

set_option maxRecDepth 8000 in
/-- The archived snapshot of the C9 counterexample, componentwise. -/
theorem cxSnap9_eq :
    cxSnap9 = ⟨Compress cxState9Pre.trie.commit, serializeTrie cxState9Pre⟩ :=
  rfl

set_option maxRecDepth 8000 in
/-- **C9 counterexample.**  `Apply` succeeds and archives the block, the
post-apply state holds the written balance, yet `GetArchiveState` fails
for that very block: the snapshot's sampled serialization missed the
stored key, so the restore's commitment check rejects it. -/
theorem claim_archive_roundtrip_cx :
    cxState9.getArchiveState 1 = none ∧
    cxState9.getBalance cxAddr2 = 7 := by
  constructor
  · have hblk : cxState9.archive.getBlock 1 = some cxSnap9 := by
      rw [show cxState9.archive = (newVtArchive 1000).addBlock 1 cxSnap9
        from rfl]
      exact addBlock_getBlock _ _ _ (by decide)
    have hmeta : cxSnap9.getMetaData =
        (List.replicate 31 0 ++ [1]) ++ beBytes4 1 := by
      rw [cxSnap9_eq, VtSnapshot.getMetaData,
        Compress_ne_zero cxState9_commit_ne]
    have hdata : cxSnap9.data = beBytes4 0 := by
      rw [cxSnap9_eq]
      show serializeTrie cxState9Pre = beBytes4 0
      rw [serializeTrie, cxState9_entries]
      rfl
    rw [State.getArchiveState, hblk, Option.some_bind, hmeta, hdata]
    have hnone : Restore ((List.replicate 31 0 ++ [1]) ++ beBytes4 1)
        (beBytes4 0) = none := by
      rw [← Option.not_isSome_iff_eq_none]
      intro hs
      rw [Restore_isSome_iff] at hs
      obtain ⟨-, t, hdt, hct⟩ := hs
      rw [show deserializeTrie (beBytes4 0) = some (writeOps []) from by
        rw [deserializeTrie, if_neg (by decide), if_neg (by decide)]
        rfl] at hdt
      rw [← Option.some_inj.mp hdt] at hct
      rw [show (writeOps []).commit = 0 from rfl, Compress_zero] at hct
      exact absurd hct (by decide)
    rw [hnone]
    rfl
  · decide

end Vt
